import Mathlib

set_option maxRecDepth 100000

/-!
Verification of the Biznesinfo keyword-derivation engine and catalog store.

This file gives a shallow embedding, in Lean 4, of the computational core of
the repository: the keyword derivation pipeline (`generateCompanyKeywordPhrases`
and its helpers) and the relevant parts of the catalog store
(`normalizeRegionSlug`, `biznesinfoSearch`, `getStore`, keyword overrides).
Strings are modelled as lists of characters; every regular-expression step of
the source is translated into an explicit structurally-recursive scanner so
that all definitions evaluate inside the kernel.

Numeric conventions.  Candidate scores in the source are JS floating-point
numbers built from integer base scores, a penalty of 0.4 per word beyond the
third, and a volume boost of `Math.log10(volume+1)*8`.  All constants except
the boost are integer multiples of 1/5, so scores are represented here as
integers counted in fifths of a score unit; the transcendental boost is kept
abstract as a parameter `volumeBoost : ℚ → ℤ` (also in fifths) of the
environment, so every theorem quantified over the environment holds in
particular for any rounding of the real boost.  Volumes are rational numbers;
they are only ever compared, never combined arithmetically, mirroring the
source.

External data.  The files `keyword_synonyms.ru.json`, `keyword_geo.ru.json`
and the keyword/website/logo override tables are data files of the repository
that are not part of the source tree given here; following the specification
(§9: heuristic tables are "external, swappable data"), they appear as explicit
parameters (`KeywordEnv`, override association lists).
-/

namespace Biznesinfo

/-- Strings are modelled as lists of characters. -/
abbrev Str := List Char

/-- Converts a Lean string literal to the character-list representation. -/
def str (s : String) : Str := s.toList

/-! ## Character classes and elementary string operations -/

/-- ASCII uppercase letter. -/
def isAsciiUpper (c : Char) : Bool := 0x41 ≤ c.toNat && c.toNat ≤ 0x5a

/-- Basic Cyrillic uppercase letter (U+0410..U+042F). -/
def isCyrUpper (c : Char) : Bool := 0x410 ≤ c.toNat && c.toNat ≤ 0x42f

/-- Embedding of JS `String.prototype.toLowerCase`, restricted to the Latin
and Cyrillic letters that occur in the repository's data. -/
def lowerU (c : Char) : Char :=
  if isAsciiUpper c then Char.ofNat (c.toNat + 32)
  else if isCyrUpper c then Char.ofNat (c.toNat + 32)
  else if c = 'Ё' then 'ё'
  else c

/-- Embedding of the regex class `\p{L}`, restricted to the Latin and basic
Cyrillic ranges used by the repository's data. -/
def isLetterU (c : Char) : Bool :=
  let n := c.toNat
  (0x61 ≤ n && n ≤ 0x7a) || (0x41 ≤ n && n ≤ 0x5a) ||
  (0x430 ≤ n && n ≤ 0x44f) || (0x410 ≤ n && n ≤ 0x42f) || n = 0x451 || n = 0x401

/-- Embedding of the regex classes `\d` and `\p{N}` (restricted to the ASCII
digits, the only numerals in the repository's data). -/
def isDigitU (c : Char) : Bool := 0x30 ≤ c.toNat && c.toNat ≤ 0x39

/-- Lowercase Cyrillic letter in the range `[а-я]` (as in the source's
character classes; note `ё` is outside this range). -/
def isCyrLowerAZ (c : Char) : Bool := 0x430 ≤ c.toNat && c.toNat ≤ 0x44f

/-- Embedding of the JS regex class `\s` (and of the whitespace trimmed by
`String.prototype.trim`). -/
def isSpaceU (c : Char) : Bool :=
  let n := c.toNat
  n = 0x20 || n = 0x09 || n = 0x0a || n = 0x0d || n = 0x0b || n = 0x0c ||
  n = 0xa0 || n = 0x1680 || (0x2000 ≤ n && n ≤ 0x200a) || n = 0x2028 ||
  n = 0x2029 || n = 0x202f || n = 0x205f || n = 0x3000 || n = 0xfeff

/-- Embedding of the regex class `\p{Extended_Pictographic}` (the main Unicode
ranges; the class is disjoint from letters, digits and whitespace, which is
the only property of it the pipeline depends on). -/
def isPicto (c : Char) : Bool :=
  let n := c.toNat
  n = 0xa9 || n = 0xae || n = 0x203c || n = 0x2049 || n = 0x2122 ||
  n = 0x2139 || (0x2194 ≤ n && n ≤ 0x2199) || (0x21a9 ≤ n && n ≤ 0x21aa) ||
  (0x231a ≤ n && n ≤ 0x23fa) || n = 0x24c2 || (0x25aa ≤ n && n ≤ 0x25fe) ||
  (0x2600 ≤ n && n ≤ 0x27bf) || (0x2934 ≤ n && n ≤ 0x2935) ||
  (0x2b00 ≤ n && n ≤ 0x2bff) || n = 0x3030 || n = 0x303d || n = 0x3297 ||
  n = 0x3299 || (0x1f000 ≤ n && n ≤ 0x1fffd) || (0xe0020 ≤ n && n ≤ 0xe007f)

/-- The quote characters folded to spaces by `normalizeKeywordPhrase`
(the regex class `[«»"'`“”„]` of the source). -/
def isQuoteChar (c : Char) : Bool :=
  let n := c.toNat
  n = 0xab || n = 0xbb || n = 0x22 || n = 0x27 || n = 0x60 ||
  n = 0x201c || n = 0x201d || n = 0x201e

/-- Lowercases every character (JS `toLowerCase`). -/
def lowerStr (s : Str) : Str := s.map lowerU

/-- Folds `ё` to `е` (the source's `.replace(/ё/gu, "е")`). -/
def foldYo (s : Str) : Str := s.map (fun c => if c = 'ё' then 'е' else c)

/-- Replaces every character satisfying `p` with `r` (a regex
`[class]` → `r` global replace, one replacement per matched character). -/
def mapClassTo (p : Char → Bool) (r : Char) (s : Str) : Str :=
  s.map (fun c => if p c then r else c)

/-- Helper for `replaceRunsWith`: the flag records whether the previous
character was part of a run being replaced. -/
def replaceRunsGo (p : Char → Bool) (r : Char) : Bool → Str → Str
  | _, [] => []
  | inRun, c :: rest =>
    if p c then (if inRun then [] else [r]) ++ replaceRunsGo p r true rest
    else c :: replaceRunsGo p r false rest

/-- Replaces every maximal run of characters satisfying `p` with the single
character `r` (a regex `[class]+` → `r` global replace). -/
def replaceRunsWith (p : Char → Bool) (r : Char) (s : Str) : Str :=
  replaceRunsGo p r false s

/-- Drops leading whitespace (left half of JS `trim`). -/
def trimLeftU (s : Str) : Str := s.dropWhile isSpaceU

/-- Structural right-trim: drops the trailing run of whitespace. -/
def trimRightU : Str → Str
  | [] => []
  | c :: rest =>
    let r := trimRightU rest
    if r.isEmpty && isSpaceU c then [] else c :: r

/-- Embedding of JS `String.prototype.trim`. -/
def trimU (s : Str) : Str := trimRightU (s.dropWhile isSpaceU)

/-- Case-insensitive (via `lowerU`) prefix test, used by the `giu`-flagged
entity replacements. -/
def eqCI (a b : Char) : Bool := lowerU a = lowerU b

/-- Tests whether `pat` is a case-insensitive prefix of `s`. -/
def startsWithCI : Str → Str → Bool
  | [], _ => true
  | _ :: _, [] => false
  | p :: ps, c :: cs => eqCI p c && startsWithCI ps cs

/-- Fuel-driven worker for `replaceAllCI`. -/
def replaceAllCIGo (pat rep : Str) : Nat → Str → Str
  | 0, s => s
  | _ + 1, [] => []
  | fuel + 1, c :: rest =>
    if startsWithCI pat (c :: rest) then
      rep ++ replaceAllCIGo pat rep fuel ((c :: rest).drop pat.length)
    else
      c :: replaceAllCIGo pat rep fuel rest

/-- Global case-insensitive literal replacement (a `/pat/giu` → `rep`
replace); the fuel `s.length` suffices because every step consumes at least
one character of the (nonempty) pattern. -/
def replaceAllCI (pat rep : Str) (s : Str) : Str := replaceAllCIGo pat rep s.length s

/-- Embedding of `decodeHtmlEntities`. -/
def decodeHtmlEntities (s : Str) : Str :=
  replaceAllCI (str "&gt;") (str ">")
    (replaceAllCI (str "&lt;") (str "<")
      (replaceAllCI (str "&#39;") [Char.ofNat 0x27]
        (replaceAllCI (str "&apos;") [Char.ofNat 0x27]
          (replaceAllCI (str "&#34;") [Char.ofNat 0x22]
            (replaceAllCI (str "&quot;") [Char.ofNat 0x22]
              (replaceAllCI (str "&amp;") (str "&")
                (replaceAllCI (str "&nbsp;") (str " ") s)))))))

/-- Fuel-driven worker for `stripTags`. -/
def stripTagsGo : Nat → Str → Str
  | 0, s => s
  | _ + 1, [] => []
  | fuel + 1, c :: rest =>
    if c = '<' then
      let inner := rest.takeWhile (fun d => d ≠ '>')
      if inner.length < rest.length then
        ' ' :: stripTagsGo fuel (rest.drop (inner.length + 1))
      else
        c :: stripTagsGo fuel rest
    else
      c :: stripTagsGo fuel rest

/-- Embedding of the markup-stripping step `.replace(/<[^>]*>/gu, " ")`:
a `<` with a later `>` is removed together with everything between. -/
def stripTags (s : Str) : Str := stripTagsGo s.length s

/-- Strips pictographic symbols (`.replace(/\p{Extended_Pictographic}/gu, " ")`). -/
def stripPicto (s : Str) : Str := mapClassTo isPicto ' ' s

/-- Embedding of `normalizeKeywordPhrase`: entity decode, tag strip,
pictograph strip, lowercase, `ё` fold, quote fold, non letter/digit/space
runs to a space, whitespace collapse, trim. -/
def normalizeKeywordPhrase (s : Str) : Str :=
  trimU
    (replaceRunsWith isSpaceU ' '
      (replaceRunsWith (fun c => !(isLetterU c || isDigitU c || isSpaceU c)) ' '
        (mapClassTo isQuoteChar ' '
          (foldYo
            (lowerStr
              (stripPicto
                (stripTags
                  (decodeHtmlEntities s))))))))

/-- Worker for `splitOnPred` (the accumulator holds the current piece,
reversed). -/
def splitOnPredGo (p : Char → Bool) : Str → Str → List Str
  | [], acc => [acc.reverse]
  | c :: rest, acc =>
    if p c then acc.reverse :: splitOnPredGo p rest []
    else splitOnPredGo p rest (c :: acc)

/-- Splits a string at every character satisfying `p`, keeping empty pieces
(the semantics of JS `split` on a single-character regex class). -/
def splitOnPred (p : Char → Bool) (s : Str) : List Str := splitOnPredGo p s []

/-- Splits on whitespace and removes empty pieces: the ubiquitous
`.split(/\s+/u).filter(Boolean)` of the source. -/
def wordsOf (s : Str) : List Str := (splitOnPred isSpaceU s).filter (fun t => t ≠ [])

/-- Joins a token list with single spaces (`tokens.join(" ")`). -/
def joinSpaces (tokens : List Str) : Str := (tokens.intersperse [' ']).flatten

/-- Embedding of `wordsCount`. -/
def wordsCount (s : Str) : Nat := (wordsOf s).length

/-- Substring test: `pat` occurs somewhere inside `s`
(JS `String.prototype.includes`, regex `.test` of a literal). -/
def containsSub (pat : Str) : Str → Bool
  | [] => pat.isPrefixOf []
  | c :: rest => pat.isPrefixOf (c :: rest) || containsSub pat rest

/-- Tests whether some suffix of `s` satisfies `f` (used to embed regex
searches that are not plain literals). -/
def anySuffix (f : Str → Bool) : Str → Bool
  | [] => f []
  | c :: rest => f (c :: rest) || anySuffix f rest

/-- Keeps the first occurrence of every element, preserving order (the
`Set` insertion-order semantics of the source). -/
def dedupGo (seen : List Str) : List Str → List Str
  | [] => []
  | a :: rest =>
    if seen.contains a then dedupGo seen rest
    else a :: dedupGo (a :: seen) rest

/-- Insertion-order deduplication (`Array.from(new Set(xs))`). -/
def dedupFirst (l : List Str) : List Str := dedupGo [] l

/-- Stable insertion of `a` into `l`, placing `a` after every element `b`
with `le b a`. -/
def insertLe (le : α → α → Bool) (a : α) : List α → List α
  | [] => [a]
  | b :: bs => if le b a then b :: insertLe le a bs else a :: b :: bs

/-- Stable sort (insertion sort), the embedding of the stable
`Array.prototype.sort`. -/
def stableSort (le : α → α → Bool) (l : List α) : List α :=
  l.foldl (fun acc a => insertLe le a acc) []

end Biznesinfo

namespace Biznesinfo

/-! ## Keyword engine: word tables (from the top of the keywords module) -/

/-- Embedding of `STOP_WORDS`. -/
def STOP_WORDS : List Str := [
  str "и", str "в", str "на", str "с", str "по", str "для", str "из", str "к",
  str "от", str "до", str "о", str "об", str "при", str "за", str "под",
  str "над", str "без", str "через", str "между", str "а", str "но", str "или",
  str "либо", str "как", str "что", str "это", str "так", str "же", str "бы",
  str "ли", str "не", str "ни", str "да", str "нет", str "мы", str "вы",
  str "они", str "он", str "она", str "оно", str "их", str "ее", str "его",
  str "наш", str "ваш", str "тот", str "эта", str "эти", str "то", str "все",
  str "вся", str "компания", str "организация", str "предприятие"]

/-- Embedding of `EDGE_TRIM_WORDS` (the stop words plus filler verbs and
generic business nouns). -/
def EDGE_TRIM_WORDS : List Str := STOP_WORDS ++ [
  str "выполняет", str "выполнение", str "оказывает", str "оказание",
  str "предоставляет", str "предоставление", str "осуществляет",
  str "осуществление", str "занимается", str "занимались", str "предлагает",
  str "также", str "еще", str "основное", str "основные", str "направление",
  str "направления", str "бренд", str "бренды"]

/-- Embedding of `GENERIC_SINGLE_WORDS`. -/
def GENERIC_SINGLE_WORDS : List Str := [
  str "услуги", str "работы", str "производство", str "изготовление",
  str "продажа", str "поставка", str "доставка", str "строительство",
  str "ремонт", str "монтаж", str "установка", str "обслуживание",
  str "аренда", str "товар", str "товары", str "продукт", str "продукты",
  str "продукция", str "бренд", str "бренды"]

/-- Embedding of `GENERIC_SUBJECT_STEMS`. -/
def GENERIC_SUBJECT_STEMS : List Str := [
  str "бренд", str "продукт", str "продукц", str "товар", str "ассортимент",
  str "линейк"]

/-- Embedding of `RUBRIC_CATEGORY_SINGLE_WORD_BLOCKLIST`. -/
def RUBRIC_CATEGORY_SINGLE_WORD_BLOCKLIST : List Str := [
  str "транспорт", str "логистика", str "недвижимость", str "строительство",
  str "сооружений", str "зданий", str "апк", str "сельское", str "лесное",
  str "сырье", str "химия", str "энергетика", str "системы"]

/-- Embedding of `DISALLOWED_WORDS`. -/
def DISALLOWED_WORDS : List Str := [str "цена", str "недорого", str "дешево"]

/-- Embedding of `DISALLOWED_STEMS`. -/
def DISALLOWED_STEMS : List Str := [str "цен", str "недорог", str "дешев"]

/-- Embedding of `ACTIVITY_TRIGGER_STEMS`. -/
def ACTIVITY_TRIGGER_STEMS : List Str := [
  str "продаж", str "поставк", str "покупк", str "куп", str "заказ",
  str "монтаж", str "установ", str "ремонт", str "строитель", str "обслужив",
  str "изготов", str "производ", str "аренд", str "достав", str "услуг",
  str "работ"]

/-- Embedding of `AUXILIARY_FORBIDDEN_TOKENS`. -/
def AUXILIARY_FORBIDDEN_TOKENS : List Str := [
  str "история", str "исторический", str "образованное", str "образована",
  str "образован", str "образовано", str "году", str "год",
  str "реконструкция", str "корпуса", str "корпус", str "цех", str "цеха",
  str "отдел", str "отделы", str "география", str "доля", str "выручки",
  str "выручка", str "вес", str "покупателей", str "покупатель",
  str "группа", str "группу", str "составляют", str "составляет"]

/-- Embedding of `AUXILIARY_FORBIDDEN_STEMS`. -/
def AUXILIARY_FORBIDDEN_STEMS : List Str := [
  str "образован", str "реконструкц", str "достраив", str "реконструир",
  str "выруч", str "покупател", str "составля", str "групп", str "дол"]

/-- Embedding of `AUX_PRODUCT_HINT_STEMS`. -/
def AUX_PRODUCT_HINT_STEMS : List Str := [
  str "молок", str "кефир", str "масл", str "творог", str "творож",
  str "сметан", str "йогурт", str "сливк", str "ряженк", str "простокваш",
  str "бифид", str "морожен", str "детск", str "питани", str "смес",
  str "сыворот", str "сыр"]

/-- Embedding of `CALLBACK_SERVICE_STEMS`. -/
def CALLBACK_SERVICE_STEMS : List Str := [
  str "сантехник", str "электрик", str "авар", str "замок", str "канализац",
  str "труб", str "мастер", str "эвакуатор", str "грузчик"]

/-- Embedding of the `KeywordCandidateSource` union type. -/
inductive KeywordSource
  | service
  | product
  | aux_text
  | rubric
  | category
deriving DecidableEq, Repr

/-- Embedding of `SOURCE_PRIORITY`. -/
def SOURCE_PRIORITY : KeywordSource → ℤ
  | .service => 5
  | .product => 4
  | .aux_text => 3
  | .rubric => 2
  | .category => 1

/-- The alternatives of the source's `TRANSACTIONAL_PREFIX_RE`, in the order
in which the regex alternation tries them. -/
def transactionalHeads : List Str := [
  str "купить оптом", str "покупка оптом", str "купить", str "покупка",
  str "продажа", str "заказать", str "вызвать", str "услуги"]

/-- Strips a leading transactional head followed by whitespace (the regex
`TRANSACTIONAL_PREFIX_RE` anchored at the start, first alternative wins). -/
def stripTransactionalHead (s : Str) : Str :=
  let rec go : List Str → Str
    | [] => s
    | h :: hs =>
      let tail := s.drop h.length
      if h.isPrefixOf s && (tail.headD ' ' |> isSpaceU) && tail ≠ [] then
        tail.dropWhile isSpaceU
      else go hs
  go transactionalHeads

/-- Embedding of `MAX_VARIANTS_PER_CORE`. -/
def MAX_VARIANTS_PER_CORE : Nat := 1

/-- Embedding of `normalizeCorePhrase`. -/
def normalizeCorePhrase (phrase : Str) : Str :=
  normalizeKeywordPhrase (trimU (stripTransactionalHead phrase))

/-- Embedding of `hasActivityTriggerToken`. -/
def hasActivityTriggerToken (token : Str) : Bool :=
  let t := trimU token
  if t = [] then false
  else ACTIVITY_TRIGGER_STEMS.any (fun stem => stem.isPrefixOf t)

/-- Embedding of `hasActivityTrigger`. -/
def hasActivityTrigger (phrase : Str) : Bool :=
  (wordsOf phrase).any hasActivityTriggerToken

/-- Embedding of `hasAuxProductHintToken`. -/
def hasAuxProductHintToken (token : Str) : Bool :=
  let t := trimU token
  if t = [] then false
  else if (str "сырь").isPrefixOf t then false
  else AUX_PRODUCT_HINT_STEMS.any (fun stem => stem.isPrefixOf t)

/-- Embedding of `hasAuxProductHint`. -/
def hasAuxProductHint (phrase : Str) : Bool :=
  (wordsOf phrase).any hasAuxProductHintToken

/-- Embedding of `trimEdgeWords`. -/
def trimEdgeWords (tokens : List Str) : List Str :=
  ((tokens.dropWhile (fun t => EDGE_TRIM_WORDS.contains t)).reverse.dropWhile
    (fun t => EDGE_TRIM_WORDS.contains t)).reverse

/-- Embedding of `normalizePhraseCandidate`. -/
def normalizePhraseCandidate (raw : Str) : Str :=
  let phrase := normalizeKeywordPhrase raw
  if phrase = [] then []
  else
    let tokens := trimEdgeWords
      ((wordsOf phrase).filter (fun t => t.length > 1 || (t ≠ [] && t.all isDigitU)))
    if tokens = [] then [] else joinSpaces tokens

end Biznesinfo

namespace Biznesinfo

/-! ## Keyword engine: external data environment, extraction helpers -/

/-- One rule of `keyword_synonyms.ru.json` (fields `match` / `synonyms` of the
source's `KeywordSynonymRule`; `match` is a Lean keyword, hence the names). -/
structure SynonymRule where
  matchPhrases : List Str
  synonymPhrases : List Str

/-- Modelled from the spec: the external data consumed at module load —
`keyword_synonyms.ru.json`, `keyword_geo.ru.json` (both data files of the
repository, absent from the given source tree; spec §9 treats them as
swappable external data) — together with the volume-boost function
`Math.log10(volume+1)*8` kept abstract (in fifths of a score unit, see the
file header). -/
structure KeywordEnv where
  synonymRulesData : List SynonymRule
  geoCountries : List Str
  geoCities : List Str
  volumeBoost : ℚ → ℤ

/-- Embedding of the module-load normalization of `SYNONYM_RULES`. -/
def SYNONYM_RULES (env : KeywordEnv) : List SynonymRule :=
  (env.synonymRulesData.map (fun rule =>
    { matchPhrases := (rule.matchPhrases.map normalizeKeywordPhrase).filter (fun v => v ≠ [])
      synonymPhrases := (rule.synonymPhrases.map normalizeKeywordPhrase).filter (fun v => v ≠ []) }))
    |>.filter (fun rule => rule.matchPhrases ≠ [] && rule.synonymPhrases ≠ [])

/-- Embedding of `GEO_PHRASES` (normalized country and city phrases,
insertion-order set). -/
def GEO_PHRASES (env : KeywordEnv) : List Str :=
  dedupFirst (((env.geoCountries.map normalizeKeywordPhrase).filter (fun v => v ≠ [])) ++
    ((env.geoCities.map normalizeKeywordPhrase).filter (fun v => v ≠ [])))

/-- Embedding of `GEO_TOKENS` (the individual words of the geo phrases). -/
def GEO_TOKENS (env : KeywordEnv) : List Str :=
  dedupFirst (((GEO_PHRASES env).flatMap (fun phrase =>
    splitOnPred (fun c => c = ' ') phrase)).map trimU |>.filter (fun t => t ≠ []))

/-- Embedding of `tokenize` (of the keywords module). -/
def tokenize (raw : Str) : List Str := wordsOf (normalizeKeywordPhrase raw)

/-- Embedding of `containsGeo`. -/
def containsGeo (env : KeywordEnv) (phrase : Str) (contextGeoTokens : List Str) : Bool :=
  let padded : Str := ' ' :: (phrase ++ [' '])
  (GEO_PHRASES env).any (fun geo => containsSub (' ' :: (geo ++ [' '])) padded) ||
  (wordsOf phrase).any (fun token =>
    (GEO_TOKENS env).contains token || contextGeoTokens.contains token)

/-- Embedding of `containsYearOrNumbers`.  The source first tests `/\d/`;
its further year and alphanumeric-code patterns can only match strings that
contain a digit, so the first test subsumes them. -/
def containsYearOrNumbers (phrase : Str) : Bool := phrase.any isDigitU

/-- Embedding of `containsAuxiliaryJunk`. -/
def containsAuxiliaryJunk (phrase : Str) : Bool :=
  (wordsOf phrase).any (fun token =>
    AUXILIARY_FORBIDDEN_TOKENS.contains token ||
    AUXILIARY_FORBIDDEN_STEMS.any (fun stem => stem.isPrefixOf token))

/-- Embedding of `containsDisallowedWord`. -/
def containsDisallowedWord (phrase : Str) : Bool :=
  (wordsOf phrase).any (fun token =>
    DISALLOWED_WORDS.contains token ||
    DISALLOWED_STEMS.any (fun stem => stem.isPrefixOf token))

/-- Embedding of `hasMeaningfulTokens`. -/
def hasMeaningfulTokens (phrase : Str) : Bool :=
  let meaningful := (wordsOf phrase).filter (fun token => !STOP_WORDS.contains token)
  if meaningful.length = 0 then false
  else if meaningful.length = 1 && GENERIC_SINGLE_WORDS.contains (meaningful.headD []) then false
  else true

/-- Embedding of `isGenericSubjectToken`. -/
def isGenericSubjectToken (token : Str) : Bool :=
  let t := trimU token
  if t = [] then true
  else GENERIC_SUBJECT_STEMS.any (fun stem => stem.isPrefixOf t)

/-- Embedding of `hasSpecificSubject`. -/
def hasSpecificSubject (phrase : Str) : Bool :=
  let core := if normalizeCorePhrase phrase = [] then phrase else normalizeCorePhrase phrase
  let tokens := (wordsOf core).filter (fun token => !STOP_WORDS.contains token)
  if tokens = [] then false
  else tokens.any (fun token => !isGenericSubjectToken token)

/-- Embedding of `isSafeKeywordPhrase`. -/
def isSafeKeywordPhrase (env : KeywordEnv) (phrase : Str) (source : KeywordSource)
    (contextGeoTokens : List Str) (contextCompanyTokens : List Str) : Bool :=
  if phrase = [] then false
  else if !(phrase.any (fun c =>
      let n := (lowerU c).toNat
      (0x61 ≤ n && n ≤ 0x7a) || (0x430 ≤ n && n ≤ 0x44f))) then false
  else if wordsCount phrase > 6 then false
  else if containsDisallowedWord phrase then false
  else if containsYearOrNumbers phrase then false
  else if containsGeo env phrase contextGeoTokens then false
  else if !hasMeaningfulTokens phrase then false
  else if source ≠ .rubric && source ≠ .category && !hasSpecificSubject phrase then false
  else if source = .aux_text && containsAuxiliaryJunk phrase then false
  else if source = .aux_text &&
      (wordsOf phrase).any (fun token => contextCompanyTokens.contains token) then false
  else true

/-- Embedding of `expandConjunctivePhrase`. -/
def expandConjunctivePhrase (raw : Str) : List Str :=
  let rawNormalized := normalizeKeywordPhrase raw
  if rawNormalized = [] then []
  else
    let tokensWithConjunction := trimEdgeWords (wordsOf rawNormalized)
    let normalized := normalizePhraseCandidate (joinSpaces tokensWithConjunction)
    if normalized = [] then []
    else if tokensWithConjunction.length < 3 then [normalized]
    else
      let andIndexes := (List.range tokensWithConjunction.length).filter
        (fun i => tokensWithConjunction.getD i [] = str "и")
      if andIndexes.length ≠ 1 then [normalized]
      else
        let idx := andIndexes.headD 0
        if idx = 0 || idx ≥ tokensWithConjunction.length - 1 then [normalized]
        else
          let leftTokens := tokensWithConjunction.take idx
          let rightTokens := tokensWithConjunction.drop (idx + 1)
          let left := normalizePhraseCandidate (joinSpaces leftTokens)
          let right0 := normalizePhraseCandidate (joinSpaces rightTokens)
          let right :=
            if rightTokens.length = 1 && leftTokens.length ≥ 2 then
              let genericExpanded :=
                if leftTokens.length ≥ 3 then
                  normalizePhraseCandidate
                    (joinSpaces (leftTokens.dropLast) ++ (' ' :: rightTokens.headD []))
                else []
              if genericExpanded ≠ [] then genericExpanded
              else
                let head := leftTokens.headD []
                if hasActivityTriggerToken head then
                  let expanded := normalizePhraseCandidate (head ++ (' ' :: rightTokens.headD []))
                  if expanded ≠ [] then expanded else right0
                else right0
            else right0
          let out := dedupFirst ([left, right].filter (fun v => v ≠ []))
          if out = [] then [normalized] else out

end Biznesinfo

namespace Biznesinfo

/-! ## Keyword engine: candidate extraction -/

/-- Fuel-driven worker for `stripDelimited`: removes `op … cl` groups whose
interior (free of `cl`) has between 1 and 120 characters, as the bounded
regexes of `stripBrandDecorations` do. -/
def stripDelimitedGo (op cl : Char) : Nat → Str → Str
  | 0, s => s
  | _ + 1, [] => []
  | fuel + 1, c :: rest =>
    if c = op then
      let inner := rest.takeWhile (fun d => d ≠ cl)
      if inner.length < rest.length && 1 ≤ inner.length && inner.length ≤ 120 then
        ' ' :: stripDelimitedGo op cl fuel (rest.drop (inner.length + 1))
      else c :: stripDelimitedGo op cl fuel rest
    else c :: stripDelimitedGo op cl fuel rest

/-- Replaces every `op…cl` group (1–120 interior characters) with a space. -/
def stripDelimited (op cl : Char) (s : Str) : Str := stripDelimitedGo op cl s.length s

/-- Embedding of `stripBrandDecorations`. -/
def stripBrandDecorations (raw : Str) : Str :=
  stripDelimited '(' ')'
    (stripDelimited '„' '“'
      (stripDelimited (Char.ofNat 0x22) (Char.ofNat 0x22)
        (stripDelimited '«' '»' raw)))

/-- Fuel-driven worker embedding the `.replace(/\s*\/\s*/gu, "\n")` step of
`splitRawToParts`: a slash together with the whitespace around it becomes a
newline. -/
def slashToNewlineGo : Nat → Str → Str
  | 0, s => s
  | _ + 1, [] => []
  | fuel + 1, c :: rest =>
    let sp := (c :: rest).takeWhile isSpaceU
    let afterSp := (c :: rest).drop sp.length
    if afterSp.headD ' ' = '/' && (sp ≠ [] || c = '/') then
      let afterSlash := afterSp.drop 1
      let sp2 := afterSlash.takeWhile isSpaceU
      '\n' :: slashToNewlineGo fuel (afterSlash.drop sp2.length)
    else
      c :: slashToNewlineGo fuel rest

/-- Replaces `\s*\/\s*` with a newline, globally. -/
def slashToNewline (s : Str) : Str := slashToNewlineGo s.length s

/-- The bullet characters `[•●·▪‣◦]` of `splitRawToParts`. -/
def isBulletChar (c : Char) : Bool :=
  c = '•' || c = '●' || c = '·' || c = '▪' || c = '‣' || c = '◦'

/-- The vertical-whitespace class `[\r\f\v]` of the source. -/
def isCrFfVt (c : Char) : Bool := c.toNat = 0x0d || c.toNat = 0x0c || c.toNat = 0x0b

/-- Embedding of `splitRawToParts`. -/
def splitRawToParts (raw : Str) : List Str :=
  let text :=
    replaceRunsWith isCrFfVt '\n'
      (slashToNewline
        (mapClassTo isBulletChar '\n'
          (stripPicto
            (stripTags
              (decodeHtmlEntities raw)))))
  ((splitOnPred (fun c => c = '\n' || c = ',' || c = ';' || c = '|') text).map trimU)
    |>.filter (fun part => part ≠ [])

/-- Embedding of `collectStructuredPhrases`; items carry the `name` and
`description` fields of the source's structured services/products entries. -/
structure StructuredItem where
  name : Str
  description : Str

/-- Embedding of the body of `collectStructuredPhrases`. -/
def collectStructuredPhrases (items : List StructuredItem) : List Str :=
  dedupFirst (items.flatMap (fun item =>
    ((splitRawToParts (stripBrandDecorations item.name)).flatMap (fun part =>
      (expandConjunctivePhrase part).filter (fun variant =>
        variant ≠ [] && wordsCount variant ≤ 6))) ++
    (((splitRawToParts item.description).take 3).flatMap (fun part =>
      (expandConjunctivePhrase part).filter (fun variant =>
        variant ≠ [] && wordsCount variant ≤ 6 && hasActivityTrigger variant)))))

/-- Embedding of `extractActivityPhrasesFromText`. -/
def extractActivityPhrasesFromText (raw : Str) : List Str :=
  let text :=
    mapClassTo isBulletChar '\n'
      (replaceRunsWith isCrFfVt '\n'
        (stripPicto
          (stripTags
            (decodeHtmlEntities raw))))
  let sentences := ((splitOnPred
      (fun c => c = '\n' || c = '.' || c = '!' || c = '?' || c = ';' || c = ':') text).map
    normalizeKeywordPhrase).filter (fun s => s ≠ [])
  dedupFirst (sentences.flatMap (fun sentence =>
    let tokens := wordsOf sentence
    let windows := (List.range tokens.length).filterMap (fun i =>
      if !hasActivityTriggerToken (tokens.getD i []) then none
      else
        let start := i - 1
        let finish := min tokens.length (start + 6)
        let slice := trimEdgeWords ((tokens.drop start).take (finish - start))
        if slice.length = 0 then none
        else if slice.length > 6 then none
        else
          let phrase := joinSpaces slice
          if !hasActivityTrigger phrase then none
          else some phrase)
    let whole :=
      if tokens.length ≤ 6 && hasActivityTrigger sentence then
        let w := joinSpaces (trimEdgeWords tokens)
        if w ≠ [] then [w] else []
      else []
    windows ++ whole))

/-- Embedding of `extractRepeatedHeadListPhrases`: the optional head stem of
a normalized part (`none` when the head is a stop word, generic subject,
activity trigger, or shorter than three characters). -/
def repeatedHeadStem (phrase : Str) : Option Str :=
  let tokens := wordsOf phrase
  match tokens.headD [] with
  | [] => none
  | head =>
    if STOP_WORDS.contains head then none
    else if isGenericSubjectToken head then none
    else if hasActivityTriggerToken head then none
    else if head.length < 3 then none
    else some (head.take 3)

/-- Embedding of `extractRepeatedHeadListPhrases`. -/
def extractRepeatedHeadListPhrases (raw : Str) : List Str :=
  let parts := splitRawToParts raw
  if parts = [] then []
  else
    let normalizedParts := ((parts.map normalizePhraseCandidate).filter
      (fun p => p ≠ [])).filter (fun phrase => wordsCount phrase ≤ 5)
    if normalizedParts = [] then []
    else
      let stems := normalizedParts.filterMap repeatedHeadStem
      let dominant := dedupFirst (stems.filter (fun stem => stems.count stem ≥ 3))
      if dominant = [] then []
      else
        dedupFirst (normalizedParts.filter (fun phrase =>
          match repeatedHeadStem phrase with
          | none => false
          | some stem => dominant.contains stem))

end Biznesinfo

namespace Biznesinfo

/-! ## Keyword engine: product-list extraction, taxonomy probes, synonyms -/

/-- Embedding of `normalizeAuxProductListItem`.  The source first applies five
replacements of "и т.д."-style junk, each written with `\b` word-boundary
anchors next to Cyrillic letters (`/\bи\s+т\.?\s*д\.?\b/giu` and similar).
The JS `\b` assertion is ASCII-based (`\w` is `[A-Za-z0-9_]`), so such a
position is a boundary only when the neighbouring character is an ASCII word
character; next to the whitespace and Cyrillic text these patterns target they
never match, and the replacements are modelled as the identity.  The final
`[()]` fold is unconditional and is embedded. -/
def normalizeAuxProductListItem (raw : Str) : Str :=
  let cleaned := mapClassTo (fun c => c = '(' || c = ')') ' ' raw
  let normalized := normalizePhraseCandidate cleaned
  if normalized = [] then []
  else if wordsCount normalized > 4 then []
  else if !hasAuxProductHint normalized then []
  else normalized

/-- The list-introduction stems looked for in the ninety characters before a
parenthetical group (`/(продукц|ассортимент|линейк|питани|выпуска|производ|молоч)/u`). -/
def productListContextStems : List Str := [
  str "продукц", str "ассортимент", str "линейк", str "питани",
  str "выпуска", str "производ", str "молоч"]

/-- Fuel-driven scanner embedding the `/\(([^()]{2,200})\)/gu` exec loop of
`extractProductListPhrasesFromText`; `revBefore` holds the already scanned
text reversed, so that the ninety-character left context is available.
The inner `split(/\s+\bи\b\s+/u)` of the source never fires (ASCII `\b`
next to the Cyrillic `и`, see `normalizeAuxProductListItem`), so a chunk is
split on `[;,/]+` only. -/
def parentheticalItemsGo : Nat → Str → Str → List Str
  | 0, _, _ => []
  | _ + 1, _, [] => []
  | fuel + 1, revBefore, c :: rest =>
    if c = '(' then
      let run := rest.takeWhile (fun d => d ≠ '(' && d ≠ ')')
      if run.length < rest.length && rest.getD run.length ' ' = ')' &&
          2 ≤ run.length && run.length ≤ 200 then
        let listRaw := trimU run
        let leftContext := (revBefore.take 90).reverse
        let items :=
          if listRaw = [] then []
          else if !(productListContextStems.any (fun stem => containsSub stem leftContext)) then []
          else
            ((splitOnPred (fun d => d = ';' || d = ',' || d = '/') listRaw).map
              normalizeAuxProductListItem).filter (fun item => item ≠ [])
        items ++ parentheticalItemsGo fuel
          (')' :: (run.reverse ++ (c :: revBefore))) (rest.drop (run.length + 1))
      else
        parentheticalItemsGo fuel (c :: revBefore) rest
    else
      parentheticalItemsGo fuel (c :: revBefore) rest

/-- Matcher for `/сух[а-я]*\s+детск[а-я]*\s+питани[а-я]*/u` (first stem
optional for the plain `детск…питани` variant). -/
def matchesStemChain (stems : List Str) (s : Str) : Bool :=
  let rec chain : List Str → Str → Bool
    | [], _ => true
    | stem :: more, t =>
      if stem.isPrefixOf t then
        let afterStem := (t.drop stem.length).dropWhile isCyrLowerAZ
        match more with
        | [] => true
        | _ =>
          let sp := afterStem.takeWhile isSpaceU
          sp ≠ [] && chain more (afterStem.drop sp.length)
      else false
  anySuffix (fun suffix => chain stems suffix) s

/-- Embedding of `extractProductListPhrasesFromText`. -/
def extractProductListPhrasesFromText (raw : Str) : List Str :=
  let text :=
    foldYo
      (lowerStr
        (replaceRunsWith isSpaceU ' '
          (stripPicto
            (stripTags
              (decodeHtmlEntities raw)))))
  let parenthetical := parentheticalItemsGo text.length [] text
  let normalizedText := normalizeKeywordPhrase raw
  let special :=
    if matchesStemChain [str "сух", str "детск", str "питани"] normalizedText then
      [str "сухое детское питание"]
    else if matchesStemChain [str "детск", str "питани"] normalizedText then
      [str "детское питание"]
    else []
  dedupFirst (parenthetical ++ special)

/-- One classification reference (`{slug, name}` entries of `categories` /
`rubrics`; only the `name` field is read by the embedded functions). -/
structure NamedRef where
  name : Str

/-- Embedding of the fields of `BiznesinfoCompany` read by the keyword
engine (absent JSON fields are the empty string / empty list). -/
structure BiznesinfoCompany where
  source_id : Str := []
  name : Str := []
  description : Str := []
  about : Str := []
  city : Str := []
  region : Str := []
  country : Str := []
  services_list : List StructuredItem := []
  products : List StructuredItem := []
  rubrics : List NamedRef := []
  categories : List NamedRef := []

/-- The food-industry stems of `hasFoodIndustryTaxonomy`
(`/(пищев|молоч|мясн|рыбн|хлеб|кондитер|продукты питания|напитк|консерв|масложиров|маслосыр|морожен|сыр(?!ь)[а-я]*)/u`). -/
def foodTaxonomyStems : List Str := [
  str "пищев", str "молоч", str "мясн", str "рыбн", str "хлеб",
  str "кондитер", str "продукты питания", str "напитк", str "консерв",
  str "масложиров", str "маслосыр", str "морожен"]

/-- Embedding of `hasFoodIndustryTaxonomy`. -/
def hasFoodIndustryTaxonomy (company : BiznesinfoCompany) : Bool :=
  let taxonomyProbe := normalizeKeywordPhrase
    (joinSpaces ((company.categories.map NamedRef.name) ++ (company.rubrics.map NamedRef.name)))
  if taxonomyProbe = [] then false
  else
    foodTaxonomyStems.any (fun stem => containsSub stem taxonomyProbe) ||
    anySuffix (fun suffix =>
      (str "сыр").isPrefixOf suffix && suffix.getD 3 ' ' ≠ 'ь') taxonomyProbe

/-- Embedding of `expandSynonyms`. -/
def expandSynonyms (env : KeywordEnv) (phrase : Str) : List Str :=
  let base := normalizeKeywordPhrase phrase
  if base = [] then []
  else
    let fromRules := (SYNONYM_RULES env).flatMap (fun rule =>
      if rule.matchPhrases.any (fun probe =>
          probe = base || containsSub probe base || containsSub base probe) then
        rule.synonymPhrases
      else [])
    let pairRule (head repl : Str) : List Str :=
      if (head ++ [' ']).isPrefixOf base then
        [trimU (repl ++ (' ' :: base.drop (head.length + 1)))]
      else []
    let extras :=
      pairRule (str "монтаж") (str "установка") ++
      pairRule (str "установка") (str "монтаж") ++
      pairRule (str "прочистка") (str "чистка") ++
      pairRule (str "чистка") (str "прочистка") ++
      pairRule (str "ремонт") (str "обслуживание")
    ((dedupFirst (fromRules ++ extras)).map normalizePhraseCandidate).filter
      (fun item => item ≠ []) |>.take 3

/-- Embedding of `shouldAddCallPhrase`. -/
def shouldAddCallPhrase (servicePhrase : Str) : Bool :=
  (tokenize servicePhrase).any (fun token =>
    CALLBACK_SERVICE_STEMS.any (fun stem => stem.isPrefixOf token))

end Biznesinfo

namespace Biznesinfo

/-! ## Keyword engine: scoring, selection, refinement, generation -/

/-- Embedding of `KeywordFallbackMode`. -/
inductive KeywordFallbackMode
  | rubrics
  | short
deriving DecidableEq, Repr

/-- Embedding of `KeywordGenerationOptions`; the user volume lookup may
return no number (`null`/`undefined`), hence the `Option ℚ` result. -/
structure KeywordGenerationOptions where
  maxKeywords : Option ℤ := none
  strictStats : Bool := false
  fallbackMode : Option KeywordFallbackMode := none
  volumeLookupFn : Option (Str → Option ℚ) := none
  volumeMap : List (Str × ℚ) := []

/-- Embedding of `parseVolume` (non-finite inputs are not representable in
`ℚ`; a missing number behaves like the source's `NaN → 0` branch). -/
def parseVolume (value : Option ℚ) : ℚ :=
  match value with
  | none => 0
  | some num => if num ≤ 0 then 0 else num

/-- First-match association-list lookup (the `ReadonlyMap.get` of the
source's `volumeMap`). -/
def lookupAssoc (m : List (Str × ℚ)) (key : Str) : Option ℚ :=
  (m.find? (fun e => e.1 = key)).map (fun e => e.2)

/-- Embedding of `buildVolumeLookup` (with `normalizeForLookup`, which is
`normalizeKeywordPhrase`, applied to the key). -/
def buildVolumeLookup (opts : KeywordGenerationOptions) : Option (Str → ℚ) :=
  match opts.volumeLookupFn with
  | some f => some (fun phrase => parseVolume (f (normalizeKeywordPhrase phrase)))
  | none =>
    if opts.volumeMap.length > 0 then
      some (fun phrase => parseVolume (lookupAssoc opts.volumeMap (normalizeKeywordPhrase phrase)))
    else none

/-- Embedding of `KeywordCandidate` (scores in fifths of a score unit, see
the file header). -/
structure KeywordCandidate where
  phrase : Str
  source : KeywordSource
  score : ℤ
  volume : ℚ
deriving DecidableEq, Repr

/-- Embedding of `buildCandidateScore`:
`baseScore + (volume>0 ? log10(volume+1)*8 : 0) - max(0, wordCount-3)*0.4`,
scaled by five (`0.4·5 = 2`; the boost is the environment's abstract
`volumeBoost`, also in fifths). -/
def buildCandidateScore (env : KeywordEnv) (baseScore : ℤ) (volume : ℚ) (phrase : Str) : ℤ :=
  let volumeBoost : ℤ := if 0 < volume then env.volumeBoost volume else 0
  let lengthPenalty : ℤ := ((wordsCount phrase - 3 : ℕ) : ℤ) * 2
  baseScore * 5 + volumeBoost - lengthPenalty

/-- Code-point comparison of phrases; on the normalized lowercase phrases
compared by the pipeline this coincides with the source's
`localeCompare(…, "ru", { sensitivity: "base" })`. -/
def lexLE : Str → Str → Bool
  | [], _ => true
  | _ :: _, [] => false
  | a :: as, b :: bs => if a = b then lexLE as bs else decide (a < b)

/-- Embedding of `candidateSort` as a "sorts before or equal" test:
score desc, volume desc, source priority desc, word count asc, phrase asc. -/
def candLE (a b : KeywordCandidate) : Bool :=
  if a.score ≠ b.score then decide (b.score < a.score)
  else if a.volume ≠ b.volume then decide (b.volume < a.volume)
  else if SOURCE_PRIORITY a.source ≠ SOURCE_PRIORITY b.source then
    decide (SOURCE_PRIORITY b.source < SOURCE_PRIORITY a.source)
  else if wordsCount a.phrase ≠ wordsCount b.phrase then
    decide (wordsCount a.phrase < wordsCount b.phrase)
  else lexLE a.phrase b.phrase

/-- The diversity key of a phrase: its core, or the phrase itself when the
core is empty (`normalizeCorePhrase(phrase) || phrase`). -/
def coreKey (phrase : Str) : Str :=
  if normalizeCorePhrase phrase = [] then phrase else normalizeCorePhrase phrase

/-- Embedding of `selectTopPhrases`; the per-core variant count of the
source's `variantCountByCore` map is recomputed from the selected list, to
which it is always equal. -/
def selectTopPhrases (candidates : List KeywordCandidate) (max : Nat)
    (alreadySelected : List Str) : List Str :=
  let sorted := stableSort candLE candidates
  (sorted.foldl (fun selected candidate =>
    if selected.length ≥ max then selected
    else if selected.contains candidate.phrase then selected
    else if (selected.filter (fun p => coreKey p = coreKey candidate.phrase)).length ≥
        MAX_VARIANTS_PER_CORE then selected
    else selected ++ [candidate.phrase]) alreadySelected).take max

/-- Embedding of `extractContextGeoTokens`. -/
def extractContextGeoTokens (company : BiznesinfoCompany) : List Str :=
  dedupFirst (tokenize company.city ++ tokenize company.region ++ tokenize company.country)

/-- The legal-form tokens skipped by `extractCompanyIdentityTokens`. -/
def identityLegalFormTokens : List Str := [
  str "ооо", str "оао", str "зао", str "ао", str "ип", str "чуп", str "уп",
  str "гп", str "кусхп"]

/-- Embedding of `extractCompanyIdentityTokens`. -/
def extractCompanyIdentityTokens (company : BiznesinfoCompany) : List Str :=
  dedupFirst
    (((tokenize company.name).filter (fun token =>
      token.length ≥ 4 && !identityLegalFormTokens.contains token)) ++
    ((wordsOf (normalizeKeywordPhrase company.source_id)).filter (fun token =>
      token.length ≥ 4)))

/-- Embedding of `collectRubricCategoryPhrases` (rubric names first, then
category names; per-source deduplication as with the source's `seen` keys). -/
def collectRubricCategoryPhrases (company : BiznesinfoCompany) :
    List (Str × KeywordSource) :=
  let pushAll (refs : List NamedRef) (source : KeywordSource) : List (Str × KeywordSource) :=
    refs.flatMap (fun r =>
      (splitRawToParts (stripBrandDecorations r.name)).flatMap (fun part =>
        (expandConjunctivePhrase part).filterMap (fun variant =>
          let normalized := normalizePhraseCandidate variant
          if normalized = [] then none
          else if wordsCount normalized > 6 then none
          else if wordsCount normalized = 1 &&
              RUBRIC_CATEGORY_SINGLE_WORD_BLOCKLIST.contains normalized then none
          else some (normalized, source))))
  let raw := pushAll company.rubrics .rubric ++ pushAll company.categories .category
  raw.foldl (fun acc entry =>
    if acc.contains entry then acc else acc ++ [entry]) []

/-- Embedding of `hasCargoSignal`. -/
def hasCargoSignal (company : BiznesinfoCompany) : Bool :=
  let probeParts :=
    (company.rubrics.map NamedRef.name) ++
    (company.categories.map NamedRef.name) ++
    (company.services_list.flatMap (fun s => [s.name, s.description])) ++
    (company.products.flatMap (fun p => [p.name, p.description]))
  let probe := normalizeKeywordPhrase (joinSpaces probeParts)
  if probe = [] then false
  else
    containsSub (str "груз") probe || containsSub (str "экспедир") probe ||
    containsSub (str "грузоперевоз") probe

/-- Embedding of `canUsePostProcessedPhrase`. -/
def canUsePostProcessedPhrase (phrase : Str) (strictStatsActive : Bool)
    (volumeLookup : Option (Str → ℚ)) : Bool :=
  if !strictStatsActive then true
  else
    match volumeLookup with
    | none => false
    | some lookup => decide (0 < lookup phrase)

/-- Replaces the element at `idx` (the source's `out[idx] = …`). -/
def setAt (l : List Str) (idx : Nat) (v : Str) : List Str := l.set idx v

/-- Embedding of `refineSelectedKeywordPhrases`. -/
def refineSelectedKeywordPhrases (selected : List Str) (company : BiznesinfoCompany)
    (strictStatsActive : Bool) (volumeLookup : Option (Str → ℚ)) : List Str :=
  let hasCargo := hasCargoSignal company
  let out1 :=
    if hasCargo then
      match selected.indexOf? (str "перевозки") with
      | some idx =>
        if !selected.contains (str "перевозки грузов") &&
            canUsePostProcessedPhrase (str "перевозки грузов") strictStatsActive volumeLookup then
          setAt selected idx (str "перевозки грузов")
        else selected
      | none => selected
    else selected
  let out2 :=
    if out1.contains (str "транспортные услуги") then
      out1.erase (str "транспорт")
    else out1
  dedupFirst (out2.filter (fun phrase => phrase ≠ []))

/-- Last-entry association lookup on the candidate list (the source's
`new Map(candidates.map(c => [c.phrase, c]))`, where a later entry for the
same phrase wins). -/
def lookupCandidate (candidates : List KeywordCandidate) (phrase : Str) :
    Option KeywordCandidate :=
  candidates.reverse.find? (fun c => c.phrase = phrase)

/-- One convertible entry of `ensureBuyIntentKeywords`. -/
structure BuyConvertible where
  idx : Nat
  buyPhrase : Str
  saleScore : ℤ

/-- One step of the convertible-collection loop of `ensureBuyIntentKeywords`:
the entry produced for index `i` of the selected list, if any. -/
def buyConvertibleAt (selected : List Str) (candidates : List KeywordCandidate)
    (strictStatsActive : Bool) (i : Nat) : Option BuyConvertible :=
  let phrase := selected.getD i []
  if !(str "продажа ").isPrefixOf phrase then none
  else
    let core := normalizeCorePhrase phrase
    if core = [] then none
    else
      let buyPhrase := normalizePhraseCandidate ((str "купить ") ++ core)
      if buyPhrase = [] then none
      else if selected.contains buyPhrase then none
      else
        match lookupCandidate candidates buyPhrase with
        | none => none
        | some buyCandidate =>
          if strictStatsActive && buyCandidate.volume ≤ 0 then none
          else
            let saleScore := match lookupCandidate candidates phrase with
              | some c => c.score
              | none => 0
            some ({ idx := i, buyPhrase := buyPhrase, saleScore := saleScore } : BuyConvertible)

/-- Embedding of `ensureBuyIntentKeywords`.  `MIN_BUY_KEYWORDS = 2`. -/
def ensureBuyIntentKeywords (selected : List Str) (candidates : List KeywordCandidate)
    (strictStatsActive : Bool) : List Str :=
  let existingBuyCount := (selected.filter (fun phrase => (str "купить ").isPrefixOf phrase)).length
  if existingBuyCount ≥ 2 then selected
  else
    let convertible := (List.range selected.length).filterMap
      (buyConvertibleAt selected candidates strictStatsActive)
    if convertible.isEmpty then selected
    else
      let sortedConv := stableSort
        (fun (a b : BuyConvertible) => decide (a.saleScore ≤ b.saleScore)) convertible
      let needed := 2 - existingBuyCount
      (sortedConv.foldl (fun (state : List Str × Nat) (item : BuyConvertible) =>
        let out := state.1
        let needed := state.2
        if needed = 0 then state
        else if out.contains item.buyPhrase then state
        else (setAt out item.idx item.buyPhrase, needed - 1)) (selected, needed)).1

/-- Embedding of `buildBlockedGenericPhrases`. -/
def buildBlockedGenericPhrases (selected : List Str) : List Str :=
  (if selected.contains (str "транспортные услуги") then [str "транспорт"] else []) ++
  (if selected.contains (str "перевозки грузов") then [str "перевозки"] else [])

end Biznesinfo

namespace Biznesinfo

/-! ## Keyword engine: `generateCompanyKeywordPhrases` -/

/-- The effective keyword bound `Math.max(1, Math.min(10, opts?.maxKeywords ?? 10))`. -/
def effectiveMaxKeywords (opts : KeywordGenerationOptions) : Nat :=
  (max 1 (min 10 (opts.maxKeywords.getD 10))).toNat

/-- The effective fallback mode (`opts?.fallbackMode === "short" ? "short" : "rubrics"`). -/
def effectiveFallbackMode (opts : KeywordGenerationOptions) : KeywordFallbackMode :=
  if opts.fallbackMode = some .short then .short else .rubrics

/-- Whether strict statistics mode is active
(`Boolean(opts?.strictStats && volumeLookup)`). -/
def strictStatsActive (opts : KeywordGenerationOptions) : Bool :=
  opts.strictStats && (buildVolumeLookup opts).isSome

/-- The volume recorded for a phrase
(`volumeLookup ? volumeLookup(phrase) : 0` in `addCandidate`). -/
def volumeOfLookup (volumeLookup : Option (Str → ℚ)) (phrase : Str) : ℚ :=
  match volumeLookup with
  | some lookup => lookup phrase
  | none => 0

/-- Embedding of the closure `addCandidate` of `generateCompanyKeywordPhrases`:
normalizes the raw phrase, applies the safety filter, scores, and merges into
the insertion-ordered candidate map (kept here as a list with unique phrases;
`Map.set` on an existing key keeps the original position). -/
def addCandidate (env : KeywordEnv) (contextGeoTokens contextCompanyTokens : List Str)
    (volumeLookup : Option (Str → ℚ)) (acc : List KeywordCandidate)
    (rawPhrase : Str) (source : KeywordSource) (baseScore : ℤ) : List KeywordCandidate :=
  let phrase := normalizePhraseCandidate rawPhrase
  if phrase = [] then acc
  else if !isSafeKeywordPhrase env phrase source contextGeoTokens contextCompanyTokens then acc
  else
    let volume := volumeOfLookup volumeLookup phrase
    let score := buildCandidateScore env baseScore volume phrase
    match acc.find? (fun c => c.phrase = phrase) with
    | none => acc ++ [{ phrase := phrase, source := source, score := score, volume := volume }]
    | some existing =>
      if existing.score < score then
        acc.map (fun c =>
          if c.phrase = phrase then
            { phrase := phrase, source := source, score := score,
              volume := max volume existing.volume }
          else c)
      else if existing.volume < volume then
        acc.map (fun c =>
          if c.phrase = phrase then { existing with volume := volume } else c)
      else acc

/-- The ordered list of `addCandidate` invocations of
`generateCompanyKeywordPhrases`, as `(rawPhrase, source, baseScore)` triples. -/
def candidateAdditions (env : KeywordEnv) (company : BiznesinfoCompany)
    (opts : KeywordGenerationOptions) : List (Str × KeywordSource × ℤ) :=
  let servicePhrases := collectStructuredPhrases company.services_list
  let productPhrases := collectStructuredPhrases company.products
  let structuredPhrasesCount := servicePhrases.length + productPhrases.length
  let serviceAdds := servicePhrases.flatMap (fun phrase =>
    [(phrase, KeywordSource.service, (120 : ℤ)),
     ((str "заказать ") ++ phrase, .service, 129),
     ((str "услуги ") ++ phrase, .service, 124)] ++
    (if shouldAddCallPhrase phrase then [((str "вызвать ") ++ phrase, KeywordSource.service, (126 : ℤ))] else []) ++
    ((expandSynonyms env phrase).map (fun synonym => (synonym, KeywordSource.service, (117 : ℤ)))))
  let productAdds := productPhrases.flatMap (fun phrase =>
    [(phrase, KeywordSource.product, (118 : ℤ)),
     ((str "продажа ") ++ phrase, .product, 127),
     ((str "купить ") ++ phrase, .product, 126),
     ((str "купить оптом ") ++ phrase, .product, 125),
     ((str "покупка ") ++ phrase, .product, 123),
     ((str "покупка оптом ") ++ phrase, .product, 122)] ++
    ((expandSynonyms env phrase).map (fun synonym => (synonym, KeywordSource.product, (114 : ℤ)))))
  let repeatedHeadAdds :=
    if structuredPhrasesCount = 0 then
      (extractRepeatedHeadListPhrases company.description).flatMap (fun phrase =>
        [(phrase, KeywordSource.aux_text, (112 : ℤ)),
         ((str "продажа ") ++ phrase, .aux_text, 110),
         ((str "купить ") ++ phrase, .aux_text, 109)])
    else []
  let auxTextAdds :=
    if strictStatsActive opts then
      ((extractActivityPhrasesFromText company.description).map
        (fun phrase => (phrase, KeywordSource.aux_text, (84 : ℤ)))) ++
      ((extractActivityPhrasesFromText company.about).map
        (fun phrase => (phrase, KeywordSource.aux_text, (81 : ℤ))))
    else []
  let productListAdds :=
    if hasFoodIndustryTaxonomy company then
      ((extractProductListPhrasesFromText company.description).map
        (fun phrase => (phrase, KeywordSource.aux_text, (109 : ℤ)))) ++
      ((extractProductListPhrasesFromText company.about).map
        (fun phrase => (phrase, KeywordSource.aux_text, (106 : ℤ))))
    else []
  let rubricCategoryAdds := (collectRubricCategoryPhrases company).map (fun entry =>
    (entry.1, entry.2, if entry.2 = KeywordSource.rubric then (58 : ℤ) else 54))
  serviceAdds ++ productAdds ++ repeatedHeadAdds ++ auxTextAdds ++
    productListAdds ++ rubricCategoryAdds

/-- The candidate map of `generateCompanyKeywordPhrases` after all
`addCandidate` calls (`Array.from(candidatesByPhrase.values())`, in
insertion order). -/
def allCandidatesOf (env : KeywordEnv) (company : BiznesinfoCompany)
    (opts : KeywordGenerationOptions) : List KeywordCandidate :=
  (candidateAdditions env company opts).foldl
    (fun acc add => addCandidate env (extractContextGeoTokens company)
      (extractCompanyIdentityTokens company) (buildVolumeLookup opts) acc
      add.1 add.2.1 add.2.2)
    []

/-- The candidate list offered to the main selection pass
(`strictFiltered` in the source: in strict mode only positive-volume
candidates are eligible). -/
def strictFilteredOf (env : KeywordEnv) (company : BiznesinfoCompany)
    (opts : KeywordGenerationOptions) : List KeywordCandidate :=
  if strictStatsActive opts then
    (allCandidatesOf env company opts).filter (fun c => decide (0 < c.volume))
  else allCandidatesOf env company opts

/-- The refined result of the main selection pass (the source's `selected`
after the first `selectTopPhrases` + `refineSelectedKeywordPhrases`). -/
def selectedMain (env : KeywordEnv) (company : BiznesinfoCompany)
    (opts : KeywordGenerationOptions) : List Str :=
  refineSelectedKeywordPhrases
    (selectTopPhrases (strictFilteredOf env company opts) (effectiveMaxKeywords opts) [])
    company (strictStatsActive opts) (buildVolumeLookup opts)

/-- The selection after the rubric/category fallback pass, when it runs
(the source's `selected` after the `fallbackMode === "rubrics"` block). -/
def selectedWithFallback (env : KeywordEnv) (company : BiznesinfoCompany)
    (opts : KeywordGenerationOptions) : List Str :=
  let selected2 := selectedMain env company opts
  if selected2.length < effectiveMaxKeywords opts &&
      effectiveFallbackMode opts = .rubrics then
    let blocked := buildBlockedGenericPhrases selected2
    let fallbackCandidates := (allCandidatesOf env company opts).filter (fun c =>
      (c.source = .rubric || c.source = .category) && !selected2.contains c.phrase)
    let filteredFallback := fallbackCandidates.filter (fun c => !blocked.contains c.phrase)
    refineSelectedKeywordPhrases
      (selectTopPhrases filteredFallback (effectiveMaxKeywords opts) selected2)
      company (strictStatsActive opts) (buildVolumeLookup opts)
  else selected2

/-- Embedding of `generateCompanyKeywordPhrases`. -/
def generateCompanyKeywordPhrases (env : KeywordEnv) (company : BiznesinfoCompany)
    (opts : KeywordGenerationOptions) : List Str :=
  (refineSelectedKeywordPhrases
    (ensureBuyIntentKeywords (selectedWithFallback env company opts)
      (allCandidatesOf env company opts) (strictStatsActive opts))
    company (strictStatsActive opts) (buildVolumeLookup opts)).take
    (effectiveMaxKeywords opts)

/-- Embedding of `keywordPhrasesToSearchTokens`. -/
def keywordPhrasesToSearchTokens (phrases : List Str) : List Str :=
  dedupFirst (phrases.flatMap (fun raw =>
    let phrase := normalizeKeywordPhrase raw
    if phrase = [] then []
    else
      phrase :: ((wordsOf phrase).filter (fun token =>
        token.length ≥ 2 && !STOP_WORDS.contains token))))

end Biznesinfo

namespace Biznesinfo

/-! ## Catalog store: region classification -/

/-- ASCII word character, the class `\w = [A-Za-z0-9_]` used by the JS `\b`
assertion (Cyrillic letters are not word characters). -/
def isAsciiWordChar (c : Char) : Bool :=
  let n := c.toNat
  (0x61 ≤ n && n ≤ 0x7a) || (0x41 ≤ n && n ≤ 0x5a) || isDigitU c || n = 0x5f

/-- Embedding of `POSTAL_PREFIX_TO_REGION_SLUG` (canonical Belarus postal
prefixes followed by the corrupted prefixes observed in dataset exports). -/
def postalCodeTable : List (Str × Str) := [
  (str "210", str "vitebsk"), (str "211", str "vitebsk"),
  (str "212", str "mogilev"), (str "213", str "mogilev"),
  (str "220", str "minsk"), (str "221", str "minsk-region"),
  (str "222", str "minsk-region"), (str "223", str "minsk-region"),
  (str "224", str "brest"), (str "225", str "brest"),
  (str "230", str "grodno"), (str "231", str "grodno"),
  (str "246", str "gomel"), (str "247", str "gomel"),
  (str "200", str "minsk"), (str "201", str "vitebsk"),
  (str "202", str "minsk-region"), (str "215", str "minsk"),
  (str "217", str "vitebsk"), (str "227", str "minsk-region"),
  (str "232", str "minsk"), (str "234", str "grodno"),
  (str "236", str "gomel"), (str "249", str "vitebsk"),
  (str "264", str "gomel"), (str "270", str "minsk"),
  (str "274", str "gomel")]

/-- Fuel-driven scanner for `address.match(/\b2\d{5}\b/g)`: collects, left to
right, the six-digit runs starting with `2` that are delimited by the ASCII
word-boundary assertion. -/
def postalMatchesGo : Nat → Option Char → Str → List Str
  | 0, _, _ => []
  | _ + 1, _, [] => []
  | fuel + 1, prev, c :: rest =>
    let code := (c :: rest).take 6
    if c = '2' && code.length = 6 && code.all isDigitU &&
        (match prev with | none => true | some p => !isAsciiWordChar p) &&
        !(isAsciiWordChar ((c :: rest).getD 6 ' ') && (c :: rest).length > 6) then
      code :: postalMatchesGo fuel (some (code.getLastD ' ')) ((c :: rest).drop 6)
    else
      postalMatchesGo fuel (some c) rest

/-- Embedding of `regionSlugFromPostalCode`. -/
def regionSlugFromPostalCode (address : Str) : Option Str :=
  (postalMatchesGo address.length none address).findSome? (fun code =>
    (postalCodeTable.find? (fun e => e.1 = code.take 3)).map (fun e => e.2))

/-- The five oblast probes of the first two rules of `normalizeRegionSlug`,
in source order. -/
def oblastProbes : List (Str × Str) := [
  (str "брест", str "brest"), (str "витеб", str "vitebsk"),
  (str "гомел", str "gomel"), (str "гродн", str "grodno"),
  (str "могил", str "mogilev")]

/-- First oblast probe contained in `s` (the chain of `includes` checks). -/
def firstOblastMatch (s : Str) : Option Str :=
  oblastProbes.findSome? (fun probe =>
    if containsSub probe.1 s then some probe.2 else none)

/-- Embedding of the local `looksLikeDistrict` of `normalizeRegionSlug`. -/
def looksLikeDistrict (s : Str) : Bool :=
  containsSub (str "р-н") s || containsSub (str "район") s ||
  containsSub (str "обл") s || containsSub (str "область") s

/-- Matcher for the Minsk compound regexes: `минск`, an optional inflection
suffix, optional whitespace, then one of `tails`
(`/минск(?:ий|ого|ому|ом)?\s*(?:р-н|район)/i` and the oblast variant). -/
def matchesMinskCompound (suffixes tails : List Str) (s : Str) : Bool :=
  anySuffix (fun suf =>
    (str "минск").isPrefixOf suf &&
    (([] :: suffixes).any (fun sfx =>
      sfx.isPrefixOf (suf.drop 5) &&
      (let afterWs := (suf.drop (5 + sfx.length)).dropWhile isSpaceU
       tails.any (fun tail => tail.isPrefixOf afterWs))))) s

/-- The district tail alternatives (`р-н|район`). -/
def minskDistrictMatch (s : Str) : Bool :=
  matchesMinskCompound [str "ий", str "ого", str "ому", str "ом"]
    [str "р-н", str "район"] s

/-- The oblast tail alternatives (`обл\.?|область`; the optional dot means a
bare `обл` prefix suffices). -/
def minskOblastMatch (s : Str) : Bool :=
  matchesMinskCompound [str "ая", str "ой", str "ую", str "ом"]
    [str "обл", str "область"] s

/-- The compound Minsk district/oblast signal of `normalizeRegionSlug`
(`isMinskRegion` in the source). -/
def minskRegionSignal (cityLow regionLow addressLow : Str) : Bool :=
  minskDistrictMatch cityLow || minskOblastMatch cityLow ||
  minskDistrictMatch regionLow || minskOblastMatch regionLow ||
  minskDistrictMatch addressLow || minskOblastMatch addressLow ||
  (containsSub (str "минск") cityLow && looksLikeDistrict cityLow) ||
  (containsSub (str "минск") regionLow && looksLikeDistrict regionLow)

/-- Embedding of `normalizeRegionSlug`. -/
def normalizeRegionSlug (city region address : Str) : Option Str :=
  let cityLow := lowerStr city
  let regionLow := lowerStr region
  let addressLow := lowerStr address
  match firstOblastMatch regionLow with
  | some slug => some slug
  | none =>
  match firstOblastMatch cityLow with
  | some slug => some slug
  | none =>
    if minskRegionSignal cityLow regionLow addressLow then some (str "minsk-region")
    else
      match regionSlugFromPostalCode address with
      | some slug => some slug
      | none =>
        if containsSub (str "минск") cityLow then some (str "minsk")
        else if containsSub (str "минск") regionLow then some (str "minsk")
        else none

end Biznesinfo

namespace Biznesinfo

/-! ## Catalog store: search helpers -/

end Biznesinfo

namespace Biznesinfo

/-! ## Catalog store: in-process search, store cache, keyword overrides -/

/-- First-match lookup in an association list keyed by company id. -/
def assocFind (m : List (Str × α)) (key : Str) : Option α :=
  (m.find? (fun e => e.1 = key)).map (fun e => e.2)

/-- The cached snapshot entry of the store module
(`storeCache = { sourcePath, mtimeMs, store }`). -/
structure StoreCacheEntry (σ : Type) where
  sourcePath : Str
  mtimeMs : ℚ
  store : σ

/-- Embedding of `getStore` as a state transformer: given the current cache,
the (path, mtime) of the source file, and the outcome of `loadStoreFrom`,
it returns the result served to the caller together with the new cache.
The promise-coalescing of concurrent loads for the same key is a concurrency
feature with no effect on the sequential result and is elided. -/
def getStoreResult {σ ε : Type} (cache : Option (StoreCacheEntry σ))
    (sourcePath : Str) (mtimeMs : ℚ) (loadResult : Except ε σ) :
    Except ε σ × Option (StoreCacheEntry σ) :=
  match cache with
  | some entry =>
    if entry.sourcePath = sourcePath ∧ entry.mtimeMs = mtimeMs then
      (Except.ok entry.store, cache)
    else
      match loadResult with
      | Except.ok s =>
        (Except.ok s, some { sourcePath := sourcePath, mtimeMs := mtimeMs, store := s })
      | Except.error e =>
        match cache with
        | some prev => (Except.ok prev.store, cache)
        | none => (Except.error e, cache)
  | none =>
    match loadResult with
    | Except.ok s =>
      (Except.ok s, some { sourcePath := sourcePath, mtimeMs := mtimeMs, store := s })
    | Except.error e =>
      match cache with
      | some prev => (Except.ok prev.store, cache)
      | none => (Except.error e, cache)

/-- Whitespace normalization applied to each override phrase
(`String(phrase || "").replace(/\s+/gu, " ").trim()`). -/
def wsNormalize (s : Str) : Str := trimU (replaceRunsWith isSpaceU ' ' s)

/-- Embedding of `getKeywordOverride`; the override table
(`BIZNESINFO_KEYWORD_OVERRIDES`, a data module not in the given source tree)
is passed as an association list looked up first by the exact id, then by
the lowercased id. -/
def getKeywordOverride (tbl : List (Str × List Str)) (companyId : Str) :
    Option (List Str) :=
  let raw := trimU companyId
  if raw = [] then none
  else
    let key := lowerStr raw
    let override := match assocFind tbl raw with
      | some v => some v
      | none => assocFind tbl key
    match override with
    | none => none
    | some ov =>
      if ov.isEmpty then none
      else
        let out := (ov.foldl (fun (state : List Str × List Str) phrase =>
          let normalized := wsNormalize phrase
          if normalized = [] then state
          else
            let dedupKey := lowerStr normalized
            if state.2.contains dedupKey then state
            else (state.1 ++ [normalized], dedupKey :: state.2)) ([], [])).1
        if out.length > 0 then some out else none

/-- Embedding of `buildCompanyKeywordPhrases` (the server generation options
and environment are parameters, as is the override table). -/
def buildCompanyKeywordPhrases (tbl : List (Str × List Str)) (env : KeywordEnv)
    (opts : KeywordGenerationOptions) (company : BiznesinfoCompany) : List Str :=
  match getKeywordOverride tbl company.source_id with
  | some override => override
  | none => generateCompanyKeywordPhrases env company opts

end Biznesinfo

namespace Biznesinfo

/-! ## Claim C9: stale snapshot on reload failure -/

/-- C9: a failed reload serves the stale snapshot when one exists and raises
only on a first-ever load. -/
theorem claim_C9_stale_snapshot {σ ε : Type} (cache : Option (StoreCacheEntry σ))
    (sourcePath : Str) (mtimeMs : ℚ) (e : ε) :
    ((getStoreResult cache sourcePath mtimeMs (Except.error e)).1 =
      (match cache with
       | some entry => Except.ok entry.store
       | none => Except.error e)) ∧
    (∀ (loadResult : Except ε σ) (e' : ε),
      (getStoreResult cache sourcePath mtimeMs loadResult).1 = Except.error e' →
        loadResult = Except.error e' ∧ cache = none) := by
  constructor
  · cases cache with
    | none => rfl
    | some entry =>
      simp only [getStoreResult]
      split
      · rfl
      · rfl
  · intro loadResult e' h
    cases cache with
    | none =>
      cases loadResult with
      | ok s => simp [getStoreResult] at h
      | error e2 => simp [getStoreResult] at h; simp [h]
    | some entry =>
      simp only [getStoreResult] at h
      split at h
      · simp at h
      · cases loadResult with
        | ok s => simp at h
        | error e2 => simp at h


/-! ## Claim C7: no-signal search returns empty -/

/-- Case-insensitive insertion-order deduplication, the claim's description
of how override phrases are published. -/
def dedupCIGo (seen : List Str) : List Str → List Str
  | [] => []
  | a :: rest =>
    if seen.contains (lowerStr a) then dedupCIGo seen rest
    else a :: dedupCIGo (lowerStr a :: seen) rest

/-- The claim's description of the published override list: each phrase
whitespace-normalized, blanks dropped, case-insensitive duplicates removed,
order preserved. -/
def specOverridePublished (entry : List Str) : List Str :=
  dedupCIGo [] ((entry.map wsNormalize).filter (fun p => p ≠ []))

/-- The override entry effective for a company id: the exact-id entry first,
the lowercased-id entry second. -/
def overrideEntryFor (tbl : List (Str × List Str)) (companyId : Str) :
    Option (List Str) :=
  let raw := trimU companyId
  if raw = [] then none
  else
    match assocFind tbl raw with
    | some v => some v
    | none => assocFind tbl (lowerStr raw)

theorem overrideFold_eq (ov : List Str) (acc seen : List Str) :
    ((ov.foldl (fun (state : List Str × List Str) phrase =>
      let normalized := wsNormalize phrase
      if normalized = [] then state
      else
        let dedupKey := lowerStr normalized
        if state.2.contains dedupKey then state
        else (state.1 ++ [normalized], dedupKey :: state.2)) (acc, seen)).1) =
      acc ++ dedupCIGo seen ((ov.map wsNormalize).filter (fun p => p ≠ [])) := by
  induction ov generalizing acc seen with
  | nil => simp [dedupCIGo]
  | cons p rest ih =>
    rw [List.foldl_cons]
    show ((rest.foldl _ (if wsNormalize p = [] then (acc, seen)
      else
        if seen.contains (lowerStr (wsNormalize p)) then (acc, seen)
        else (acc ++ [wsNormalize p], lowerStr (wsNormalize p) :: seen))).1) = _
    by_cases h1 : wsNormalize p = []
    · rw [if_pos h1, ih]
      simp [h1]
    · rw [if_neg h1]
      by_cases h2 : seen.contains (lowerStr (wsNormalize p))
      · rw [if_pos h2, ih]
        simp only [List.map_cons, List.filter_cons]
        have : (decide (wsNormalize p ≠ [])) = true := by simpa using h1
        rw [this]
        simp only [if_pos]
        rw [dedupCIGo]
        rw [if_pos h2]
      · rw [if_neg h2, ih]
        simp only [List.map_cons, List.filter_cons]
        have : (decide (wsNormalize p ≠ [])) = true := by simpa using h1
        rw [this]
        simp only [if_pos]
        rw [dedupCIGo]
        rw [if_neg h2]
        simp [List.append_assoc]

theorem dedupCIGo_ne_nil (l : List Str) (h : l ≠ []) : dedupCIGo [] l ≠ [] := by
  cases l with
  | nil => exact absurd rfl h
  | cons a rest => simp [dedupCIGo]

/-- C10: a keyword override with at least one non-blank phrase is published
verbatim (whitespace-normalized, case-insensitively deduplicated, order
preserved) and bypasses the derivation pipeline. -/
theorem claim_C10_keyword_override (tbl : List (Str × List Str)) (env : KeywordEnv)
    (opts : KeywordGenerationOptions) (company : BiznesinfoCompany) (entry : List Str)
    (hentry : overrideEntryFor tbl company.source_id = some entry)
    (hnonblank : ∃ p ∈ entry, wsNormalize p ≠ []) :
    buildCompanyKeywordPhrases tbl env opts company = specOverridePublished entry ∧
      specOverridePublished entry ≠ [] := by
  have hraw : trimU company.source_id ≠ [] := by
    intro h
    simp [overrideEntryFor, h] at hentry
  have hne : entry ≠ [] := by
    rintro rfl
    obtain ⟨p, hp, -⟩ := hnonblank
    exact absurd hp (List.not_mem_nil p)
  have hfiltne : ((entry.map wsNormalize).filter (fun p => p ≠ [])) ≠ [] := by
    obtain ⟨p, hp, hnb⟩ := hnonblank
    have : wsNormalize p ∈ (entry.map wsNormalize).filter (fun p => p ≠ []) := by
      simp only [List.mem_filter, List.mem_map]
      exact ⟨⟨p, hp, rfl⟩, by simpa using hnb⟩
    exact List.ne_nil_of_mem this
  have hspec : specOverridePublished entry ≠ [] := dedupCIGo_ne_nil _ hfiltne
  have hover : getKeywordOverride tbl company.source_id = some (specOverridePublished entry) := by
    unfold getKeywordOverride
    simp only [if_neg hraw]
    have hlook : (match assocFind tbl (trimU company.source_id) with
        | some v => some v
        | none => assocFind tbl (lowerStr (trimU company.source_id))) = some entry := by
      have := hentry
      unfold overrideEntryFor at this
      simpa [if_neg hraw] using this
    rw [hlook]
    have hlen : 0 < (specOverridePublished entry).length :=
      List.length_pos.mpr hspec
    simp only [List.isEmpty_iff, hne, if_neg hne, overrideFold_eq entry [] [],
      List.nil_append]
    simp only [specOverridePublished] at hlen
    simp only [gt_iff_lt, hlen, if_pos]
    rfl
  constructor
  · unfold buildCompanyKeywordPhrases
    rw [hover]
  · exact hspec

/-- Witness for C10 at a concrete table and company. -/
theorem claim_C10_witness :
    buildCompanyKeywordPhrases [(str "c1", [str "  Ремонт   окон ", str "ремонт окон", []])]
        { synonymRulesData := [], geoCountries := [], geoCities := [], volumeBoost := fun _ => 0 }
        {} { source_id := str "c1" } =
      [str "Ремонт окон"] :=
  ((claim_C10_keyword_override
    [(str "c1", [str "  Ремонт   окон ", str "ремонт окон", []])]
    { synonymRulesData := [], geoCountries := [], geoCities := [], volumeBoost := fun _ => 0 }
    {} { source_id := str "c1" }
    [str "  Ремонт   окон ", str "ремонт окон", []]
    (by decide)
    ⟨str "  Ремонт   окон ", by decide, by decide⟩).1).trans (by decide)

end Biznesinfo

namespace Biznesinfo

/-! ## Claim C6: region classifier precedence -/

/-- The six named-region probes as the claim describes the first rule
(the five oblast probes plus Minsk). -/
def claimSixRegionProbes : List (Str × Str) :=
  oblastProbes ++ [(str "минск", str "minsk")]

/-- The region-classification procedure exactly as the claim states it:
region-field substring match against six named regions, then city-field
substring match, then the compound Minsk district/oblast pattern, then the
postal-code lookup, then a bare Minsk substring in city or region. -/
def claimRegionClassifier (city region address : Str) : Option Str :=
  let cityLow := lowerStr city
  let regionLow := lowerStr region
  let addressLow := lowerStr address
  match claimSixRegionProbes.findSome? (fun probe =>
      if containsSub probe.1 regionLow then some probe.2 else none) with
  | some slug => some slug
  | none =>
  match claimSixRegionProbes.findSome? (fun probe =>
      if containsSub probe.1 cityLow then some probe.2 else none) with
  | some slug => some slug
  | none =>
    if minskRegionSignal cityLow regionLow addressLow then some (str "minsk-region")
    else
      match regionSlugFromPostalCode address with
      | some slug => some slug
      | none =>
        if containsSub (str "минск") cityLow then some (str "minsk")
        else if containsSub (str "минск") regionLow then some (str "minsk")
        else none

/-- Counterexample to C6: for region "минск" with postal code 224000 in the
address, the code's classifier answers "brest" (the postal rule fires before
any Minsk rule, because the explicit region-field rule matches only the five
oblast names), while the claim's procedure answers "minsk" at its first
rule. -/
theorem claim_C6_counterexample :
    normalizeRegionSlug [] (str "минск") (str "224000") = some (str "brest") ∧
    claimRegionClassifier [] (str "минск") (str "224000") = some (str "minsk") ∧
    normalizeRegionSlug [] (str "минск") (str "224000") ≠
      claimRegionClassifier [] (str "минск") (str "224000") := by
  refine ⟨by decide, by decide, by decide⟩

/-- The amended rule list: five-oblast region match, five-oblast city match,
compound Minsk district/oblast signal, postal-code lookup, bare Minsk in
city, bare Minsk in region; first match wins. -/
def amendedRegionRules : List (Str → Str → Str → Option Str) := [
  fun _ region _ => firstOblastMatch (lowerStr region),
  fun city _ _ => firstOblastMatch (lowerStr city),
  fun city region address =>
    if minskRegionSignal (lowerStr city) (lowerStr region) (lowerStr address) then
      some (str "minsk-region")
    else none,
  fun _ _ address => regionSlugFromPostalCode address,
  fun city _ _ => if containsSub (str "минск") (lowerStr city) then some (str "minsk") else none,
  fun _ region _ => if containsSub (str "минск") (lowerStr region) then some (str "minsk") else none]

/-- C6 (amended): the region classifier is the first-match-wins evaluation
of the amended rule list; in particular no rule firing yields `none`. -/
theorem claim_C6_amended_region_precedence (city region address : Str) :
    normalizeRegionSlug city region address =
      amendedRegionRules.findSome? (fun rule => rule city region address) := by
  unfold normalizeRegionSlug amendedRegionRules
  simp only [List.findSome?_cons]
  cases h1 : firstOblastMatch (lowerStr region) with
  | some slug => simp
  | none =>
    simp only [List.findSome?_cons]
    cases h2 : firstOblastMatch (lowerStr city) with
    | some slug => simp
    | none =>
      simp only [List.findSome?_cons]
      by_cases h3 : minskRegionSignal (lowerStr city) (lowerStr region) (lowerStr address)
      · simp [h3]
      · simp only [h3, Bool.false_eq_true, if_neg, List.findSome?_cons]
        cases h4 : regionSlugFromPostalCode address with
        | some slug => simp
        | none =>
          simp only [List.findSome?_cons]
          by_cases h5 : containsSub (str "минск") (lowerStr city)
          · simp [h5]
          · simp only [h5, Bool.false_eq_true, if_neg, List.findSome?_cons]
            by_cases h6 : containsSub (str "минск") (lowerStr region)
            · simp [h6]
            · simp [h6]

end Biznesinfo

namespace Biznesinfo

/-! ## Claim C5: candidate scoring and duplicate merging -/

/-- Modelled from the spec: a concrete environment with empty synonym and geo
tables (the external data files `keyword_synonyms.ru.json` and
`keyword_geo.ru.json` are absent from the given source tree; spec §9 treats
them as swappable data) and a zero volume boost, used by the concrete
witnesses and counterexamples below. -/
def specModelEnv : KeywordEnv :=
  { synonymRulesData := [], geoCountries := [], geoCities := [], volumeBoost := fun _ => 0 }

theorem find?_update (acc : List KeywordCandidate) (phrase : Str)
    (existing newC : KeywordCandidate) (hnew : newC.phrase = phrase)
    (hfind : acc.find? (fun c => c.phrase = phrase) = some existing) :
    (acc.map (fun c => if c.phrase = phrase then newC else c)).find?
      (fun c => c.phrase = phrase) = some newC := by
  induction acc with
  | nil => simp at hfind
  | cons a rest ih =>
    by_cases ha : a.phrase = phrase
    · simp [List.find?_cons, ha, hnew]
    · rw [List.find?_cons_of_neg _ (by simpa using ha)] at hfind
      simp only [List.map_cons, if_neg ha]
      rw [List.find?_cons_of_neg _ (by simpa using ha)]
      exact ih hfind

/-- Helper for claim C5: the behaviour of `addCandidate` on a phrase that is
already present in the candidate map. -/
theorem addCandidate_merge (env : KeywordEnv) (ctxG ctxC : List Str)
    (volumeLookup : Option (Str → ℚ)) (acc : List KeywordCandidate)
    (rawPhrase : Str) (source : KeywordSource) (base : ℤ) (ph : Str)
    (existing : KeywordCandidate)
    (hph : normalizePhraseCandidate rawPhrase = ph)
    (hphrase : ph ≠ [])
    (hsafe : isSafeKeywordPhrase env ph source ctxG ctxC = true)
    (hfind : acc.find? (fun c => c.phrase = ph) = some existing) :
    addCandidate env ctxG ctxC volumeLookup acc rawPhrase source base =
      (if existing.score < buildCandidateScore env base (volumeOfLookup volumeLookup ph) ph then
        acc.map (fun c =>
          if c.phrase = ph then
            { phrase := ph, source := source,
              score := buildCandidateScore env base (volumeOfLookup volumeLookup ph) ph,
              volume := max (volumeOfLookup volumeLookup ph) existing.volume }
          else c)
      else if existing.volume < volumeOfLookup volumeLookup ph then
        acc.map (fun c =>
          if c.phrase = ph then { existing with volume := volumeOfLookup volumeLookup ph } else c)
      else acc) := by
  unfold addCandidate
  rw [hph]
  rw [if_neg (by simpa using hphrase), if_neg (by simp [hsafe]), hfind]

set_option maxHeartbeats 1000000 in
/-- C5: the candidate score follows the claimed formula (stated over `ℚ`
with the file's fifth-scaling divided out and the `log10` boost abstract),
and merging a duplicate phrase keeps the higher score, the larger observed
volume, and the higher-scoring entry's source (the existing entry on a
tie). -/
theorem claim_C5_score_and_merge (env : KeywordEnv) (ctxG ctxC : List Str)
    (volumeLookup : Option (Str → ℚ)) (acc : List KeywordCandidate)
    (rawPhrase : Str) (source : KeywordSource) (base : ℤ) (existing : KeywordCandidate)
    (hphrase : normalizePhraseCandidate rawPhrase ≠ [])
    (hsafe : isSafeKeywordPhrase env (normalizePhraseCandidate rawPhrase) source ctxG ctxC = true)
    (hfind : acc.find? (fun c => c.phrase = normalizePhraseCandidate rawPhrase) = some existing) :
    ((buildCandidateScore env base
        (volumeOfLookup volumeLookup (normalizePhraseCandidate rawPhrase))
        (normalizePhraseCandidate rawPhrase) : ℚ) / 5 =
      (base : ℚ) +
        (if 0 < volumeOfLookup volumeLookup (normalizePhraseCandidate rawPhrase) then
          ((env.volumeBoost (volumeOfLookup volumeLookup (normalizePhraseCandidate rawPhrase)) : ℤ) : ℚ) / 5
         else 0) -
        ((wordsCount (normalizePhraseCandidate rawPhrase) - 3 : ℕ) : ℚ) * (2 / 5)) ∧
    (∃ merged,
      (addCandidate env ctxG ctxC volumeLookup acc rawPhrase source base).find?
        (fun c => c.phrase = normalizePhraseCandidate rawPhrase) = some merged ∧
      merged.score = max (buildCandidateScore env base
        (volumeOfLookup volumeLookup (normalizePhraseCandidate rawPhrase))
        (normalizePhraseCandidate rawPhrase)) existing.score ∧
      merged.volume = max (volumeOfLookup volumeLookup (normalizePhraseCandidate rawPhrase))
        existing.volume ∧
      (existing.score < buildCandidateScore env base
          (volumeOfLookup volumeLookup (normalizePhraseCandidate rawPhrase))
          (normalizePhraseCandidate rawPhrase) →
        merged.source = source) ∧
      (¬ existing.score < buildCandidateScore env base
          (volumeOfLookup volumeLookup (normalizePhraseCandidate rawPhrase))
          (normalizePhraseCandidate rawPhrase) →
        merged.source = existing.source ∧ merged.score = existing.score)) := by
  obtain ⟨ph, hph⟩ : ∃ ph, normalizePhraseCandidate rawPhrase = ph := ⟨_, rfl⟩
  rw [hph] at hphrase hsafe hfind ⊢
  set volume : ℚ := volumeOfLookup volumeLookup ph with hvol
  set score := buildCandidateScore env base volume ph with hsc
  have hexphrase : existing.phrase = ph := by
    have := List.find?_some hfind
    simpa using this
  constructor
  · rw [hsc]
    unfold buildCandidateScore
    by_cases h : 0 < volume
    · simp only [h, if_pos]
      push_cast
      ring
    · simp only [h, if_neg, if_false]
      push_cast
      ring
  · rw [addCandidate_merge env ctxG ctxC volumeLookup acc rawPhrase source base ph existing
      hph hphrase hsafe hfind]
    by_cases hlt : existing.score < score
    · rw [if_pos hlt]
      refine ⟨_, find?_update acc ph existing _ rfl hfind, ?_, ?_, ?_, ?_⟩
      · simp [max_eq_left (le_of_lt hlt)]
      · rfl
      · intro _; rfl
      · intro h; exact absurd hlt h
    · rw [if_neg hlt]
      by_cases hv : existing.volume < volume
      · rw [if_pos hv]
        refine ⟨_, find?_update acc ph existing _ hexphrase hfind, ?_, ?_, ?_, ?_⟩
        · simp [max_eq_right (not_lt.mp hlt)]
        · simp [max_eq_left (le_of_lt hv)]
        · intro h; exact absurd h hlt
        · intro _; exact ⟨rfl, rfl⟩
      · rw [if_neg hv]
        refine ⟨existing, hfind, ?_, ?_, ?_, ?_⟩
        · simp [max_eq_right (not_lt.mp hlt)]
        · simp [max_eq_right (not_lt.mp hv)]
        · intro h; exact absurd h hlt
        · intro _; exact ⟨rfl, rfl⟩



/-- Witness for C5: merging a duplicate of the phrase "окна" added once as a
product (score 590 in fifths) and again as a service with base 120. -/
theorem claim_C5_witness :
    ∃ merged,
      (addCandidate specModelEnv [] [] none
          [{ phrase := str "окна", source := KeywordSource.product, score := 590, volume := 0 }]
          (str "окна") KeywordSource.service 120).find?
        (fun c => c.phrase = normalizePhraseCandidate (str "окна")) = some merged ∧
      merged.score = max (buildCandidateScore specModelEnv 120
        (volumeOfLookup none (normalizePhraseCandidate (str "окна")))
        (normalizePhraseCandidate (str "окна"))) 590 ∧
      merged.volume = max (volumeOfLookup none (normalizePhraseCandidate (str "окна"))) 0 ∧
      ((590 : ℤ) < buildCandidateScore specModelEnv 120
          (volumeOfLookup none (normalizePhraseCandidate (str "окна")))
          (normalizePhraseCandidate (str "окна")) →
        merged.source = KeywordSource.service) ∧
      (¬ (590 : ℤ) < buildCandidateScore specModelEnv 120
          (volumeOfLookup none (normalizePhraseCandidate (str "окна")))
          (normalizePhraseCandidate (str "окна")) →
        merged.source = KeywordSource.product ∧ merged.score = 590) :=
  (claim_C5_score_and_merge specModelEnv [] [] none
    [{ phrase := str "окна", source := KeywordSource.product, score := 590, volume := 0 }]
    (str "окна") KeywordSource.service 120
    { phrase := str "окна", source := KeywordSource.product, score := 590, volume := 0 }
    (by decide) (by decide) (by decide)).2

end Biznesinfo

namespace Biznesinfo

/-! ## Claim C2: end-to-end scenario A (conjunction split) -/

/-- Witness for C9: a stale cached snapshot (value 42) is served when the
reload for a changed mtime fails. -/
theorem claim_C9_witness :
    (getStoreResult (some { sourcePath := str "p", mtimeMs := 1, store := (42 : ℕ) })
      (str "p") 2 (Except.error (str "boom"))).1 = Except.ok 42 :=
  (claim_C9_stale_snapshot
    (some { sourcePath := str "p", mtimeMs := 1, store := (42 : ℕ) })
    (str "p") 2 (str "boom")).1

/-- The record of end-to-end scenario A:
`services_list=[{name:"ремонт и обслуживание холодильников"}]`. -/
def scenarioACompany : BiznesinfoCompany :=
  { services_list := [{ name := str "ремонт и обслуживание холодильников", description := [] }] }

/-- Counterexample to C2: with no volume table, the conjunction split of
"ремонт и обслуживание холодильников" yields the bare left half "ремонт"
(rejected as a generic single word) and "обслуживание холодильников"; the
derived list contains neither "ремонт холодильников" nor the bare
"обслуживание холодильников". -/
theorem claim_C2_counterexample :
    generateCompanyKeywordPhrases specModelEnv scenarioACompany {} =
      [str "заказать ремонт", str "заказать обслуживание холодильников"] ∧
    str "ремонт холодильников" ∉
      generateCompanyKeywordPhrases specModelEnv scenarioACompany {} ∧
    str "обслуживание холодильников" ∉
      generateCompanyKeywordPhrases specModelEnv scenarioACompany {} := by
  refine ⟨by decide, by decide, by decide⟩

/-- C2 (amended): for scenario A the derived list is exactly
["заказать ремонт", "заказать обслуживание холодильников"] — the two
conjunction-split halves survive only through their transactional
("заказать …") variants, which win the per-core diversity slot over the
bare forms, and the expanded phrase "ремонт холодильников" is never
produced because the left half of the split keeps no tail tokens. -/
theorem claim_C2_amended_scenario_a :
    generateCompanyKeywordPhrases specModelEnv scenarioACompany {} =
      [str "заказать ремонт", str "заказать обслуживание холодильников"] ∧
    (str "заказать ").isPrefixOf (str "заказать обслуживание холодильников") = true ∧
    expandConjunctivePhrase (str "ремонт и обслуживание холодильников") =
      [str "ремонт", str "обслуживание холодильников"] := by
  refine ⟨by decide, by decide, by decide⟩

end Biznesinfo

namespace Biznesinfo

/-! ## Membership lemmas for the selection and refinement stages -/

/-! Membership lemmas for the selection and refinement stages. -/

theorem mem_insertLe {le : α → α → Bool} {a x : α} {l : List α} :
    x ∈ insertLe le a l ↔ x = a ∨ x ∈ l := by
  induction l with
  | nil => simp [insertLe]
  | cons b bs ih =>
    by_cases h : le b a <;>
      simp only [insertLe, h, if_true, if_false, Bool.false_eq_true, List.mem_cons, ih] <;>
      tauto

theorem mem_stableSort {le : α → α → Bool} {x : α} {l : List α} :
    x ∈ stableSort le l ↔ x ∈ l := by
  have main : ∀ (l acc : List α), x ∈ l.foldl (fun acc a => insertLe le a acc) acc ↔
      x ∈ acc ∨ x ∈ l := by
    intro l
    induction l with
    | nil => intro acc; simp
    | cons a rest ih =>
      intro acc
      rw [List.foldl_cons, ih, mem_insertLe]
      simp only [List.mem_cons]
      tauto
  rw [stableSort, main]
  simp

theorem dedupGo_subset {seen l : List Str} {p : Str} (h : p ∈ dedupGo seen l) : p ∈ l := by
  induction l generalizing seen with
  | nil => simp [dedupGo] at h
  | cons a rest ih =>
    by_cases ha : seen.contains a
    · simp only [dedupGo, if_pos ha] at h
      exact List.mem_cons_of_mem _ (ih h)
    · simp only [dedupGo, if_neg ha, List.mem_cons] at h
      rcases h with h | h
      · exact h ▸ List.mem_cons_self _ _
      · exact List.mem_cons_of_mem _ (ih h)

theorem dedupFirst_subset {l : List Str} {p : Str} (h : p ∈ dedupFirst l) : p ∈ l :=
  dedupGo_subset h

theorem selectTopPhrases_mem {cands : List KeywordCandidate} {max : Nat}
    {already : List Str} {p : Str} (h : p ∈ selectTopPhrases cands max already) :
    p ∈ already ∨ ∃ c ∈ cands, c.phrase = p := by
  have hfold : ∀ (sorted : List KeywordCandidate) (sel : List Str),
      p ∈ sorted.foldl (fun selected candidate =>
        if selected.length ≥ max then selected
        else if selected.contains candidate.phrase then selected
        else if (selected.filter (fun q => coreKey q = coreKey candidate.phrase)).length ≥
            MAX_VARIANTS_PER_CORE then selected
        else selected ++ [candidate.phrase]) sel →
      p ∈ sel ∨ ∃ c ∈ sorted, c.phrase = p := by
    intro sorted
    induction sorted with
    | nil => intro sel h; exact Or.inl h
    | cons c rest ih =>
      intro sel h
      rw [List.foldl_cons] at h
      rcases ih _ h with hmem | ⟨c', hc', hph⟩
      · by_cases h1 : sel.length ≥ max
        · rw [if_pos h1] at hmem; exact Or.inl hmem
        · rw [if_neg h1] at hmem
          by_cases h2 : sel.contains c.phrase
          · rw [if_pos h2] at hmem; exact Or.inl hmem
          · rw [if_neg h2] at hmem
            by_cases h3 : (sel.filter (fun q => coreKey q = coreKey c.phrase)).length ≥
                MAX_VARIANTS_PER_CORE
            · rw [if_pos h3] at hmem; exact Or.inl hmem
            · rw [if_neg h3] at hmem
              rcases List.mem_append.mp hmem with hmem | hmem
              · exact Or.inl hmem
              · exact Or.inr ⟨c, List.mem_cons_self _ _, (List.mem_singleton.mp hmem).symm⟩
      · exact Or.inr ⟨c', List.mem_cons_of_mem _ hc', hph⟩
  unfold selectTopPhrases at h
  have h' := List.mem_of_mem_take h
  rcases hfold _ _ h' with hmem | ⟨c, hc, hph⟩
  · exact Or.inl hmem
  · exact Or.inr ⟨c, mem_stableSort.mp hc, hph⟩

theorem refineSelected_mem {sel : List Str} {company : BiznesinfoCompany}
    {strict : Bool} {lookup : Option (Str → ℚ)} {p : Str}
    (h : p ∈ refineSelectedKeywordPhrases sel company strict lookup) :
    p ∈ sel ∨ (p = str "перевозки грузов" ∧
      canUsePostProcessedPhrase (str "перевозки грузов") strict lookup = true) := by
  unfold refineSelectedKeywordPhrases at h
  have h1 := List.mem_filter.mp (dedupFirst_subset h) |>.1
  have hout1 : ∀ {out1 : List Str}, p ∈ (if out1.contains (str "транспортные услуги") then
      out1.erase (str "транспорт") else out1) → p ∈ out1 := by
    intro out1 hm
    by_cases hc : out1.contains (str "транспортные услуги")
    · rw [if_pos hc] at hm; exact List.mem_of_mem_erase hm
    · rwa [if_neg hc] at hm
  have h2 := hout1 h1
  by_cases hcargo : hasCargoSignal company
  · rw [if_pos hcargo] at h2
    cases hidx : sel.indexOf? (str "перевозки") with
    | none => rw [hidx] at h2; exact Or.inl h2
    | some idx =>
      rw [hidx] at h2
      have h3 : p ∈ (if (!sel.contains (str "перевозки грузов") &&
          canUsePostProcessedPhrase (str "перевозки грузов") strict lookup) = true then
            setAt sel idx (str "перевозки грузов")
          else sel) := h2
      by_cases hcond : !sel.contains (str "перевозки грузов") &&
          canUsePostProcessedPhrase (str "перевозки грузов") strict lookup
      · rw [if_pos hcond] at h3
        rcases List.mem_or_eq_of_mem_set h3 with hm | hm
        · exact Or.inl hm
        · refine Or.inr ⟨hm, ?_⟩
          have := (Bool.and_eq_true _ _).mp hcond
          exact this.2
      · rw [if_neg hcond] at h3; exact Or.inl h3
  · rw [if_neg hcargo] at h2; exact Or.inl h2



theorem buyConvertibleAt_some {sel : List Str} {cands : List KeywordCandidate}
    {strict : Bool} {i : Nat} {item : BuyConvertible}
    (h : buyConvertibleAt sel cands strict i = some item) :
    ∃ c ∈ cands, c.phrase = item.buyPhrase ∧ (strict = true → 0 < c.volume) := by
  unfold buyConvertibleAt at h
  simp only at h
  generalize hph : sel.getD i [] = ph at h
  generalize hcore : normalizeCorePhrase ph = core at h
  generalize hbp : normalizePhraseCandidate ((str "купить ") ++ core) = bp at h
  split at h
  · exact Option.noConfusion h
  · split at h
    · exact Option.noConfusion h
    · split at h
      · exact Option.noConfusion h
      · split at h
        · exact Option.noConfusion h
        · split at h
          · exact Option.noConfusion h
          next bc hbc =>
            split at h
            · exact Option.noConfusion h
            next hstrictvol =>
              unfold lookupCandidate at hbc
              have hbcmem : bc ∈ cands :=
                List.mem_reverse.mp (List.mem_of_find?_eq_some hbc)
              have hbcphrase := List.find?_some hbc
              rw [decide_eq_true_eq] at hbcphrase
              cases h
              refine ⟨bc, hbcmem, hbcphrase, ?_⟩
              intro hstrict
              by_contra hvol
              exact hstrictvol (by
                simp only [hstrict, Bool.true_and, decide_eq_true_eq]
                exact le_of_not_lt hvol)

theorem ensureBuy_mem {sel : List Str} {cands : List KeywordCandidate}
    {strict : Bool} {p : Str} (h : p ∈ ensureBuyIntentKeywords sel cands strict) :
    p ∈ sel ∨ ∃ c ∈ cands, c.phrase = p ∧ (strict = true → 0 < c.volume) := by
  unfold ensureBuyIntentKeywords at h
  by_cases hbuy : (sel.filter (fun phrase => (str "купить ").isPrefixOf phrase)).length ≥ 2
  · rw [if_pos hbuy] at h; exact Or.inl h
  · rw [if_neg hbuy] at h
    by_cases hempty : ((List.range sel.length).filterMap
        (buyConvertibleAt sel cands strict)).isEmpty
    · rw [if_pos hempty] at h
      exact Or.inl h
    · rw [if_neg hempty] at h
      have hfold : ∀ (items : List BuyConvertible)
          (state : List Str × Nat),
          (∀ q ∈ state.1, q ∈ sel ∨ ∃ c ∈ cands, c.phrase = q ∧ (strict = true → 0 < c.volume)) →
          (∀ item ∈ items, ∃ c ∈ cands, c.phrase = item.buyPhrase ∧ (strict = true → 0 < c.volume)) →
          ∀ q ∈ (items.foldl (fun (state : List Str × Nat) (item : BuyConvertible) =>
            let out := state.1
            let needed := state.2
            if needed = 0 then state
            else if out.contains item.buyPhrase then state
            else (setAt out item.idx item.buyPhrase, needed - 1)) state).1,
            q ∈ sel ∨ ∃ c ∈ cands, c.phrase = q ∧ (strict = true → 0 < c.volume) := by
        intro items
        induction items with
        | nil => intro state hstate _ q hq; exact hstate q hq
        | cons item rest ih =>
          intro state hstate hitems q hq
          rw [List.foldl_cons] at hq
          refine ih _ ?_ (fun it hit => hitems it (List.mem_cons_of_mem _ hit)) q hq
          intro r hr
          by_cases hn : state.2 = 0
          · simp only [hn, if_pos] at hr
            exact hstate r hr
          · rw [if_neg hn] at hr
            by_cases hc : state.1.contains item.buyPhrase
            · rw [if_pos hc] at hr
              exact hstate r hr
            · rw [if_neg hc] at hr
              rcases List.mem_or_eq_of_mem_set hr with hm | hm
              · exact hstate r hm
              · subst hm
                obtain ⟨c, hcmem, hcph, hcvol⟩ := hitems item (List.mem_cons_self _ _)
                exact Or.inr ⟨c, hcmem, hcph, hcvol⟩
      refine hfold _ (sel, 2 - (sel.filter (fun phrase => (str "купить ").isPrefixOf phrase)).length)
        (fun q hq => Or.inl hq) ?_ p h
      intro item hitem
      obtain ⟨i, -, hf⟩ := List.mem_filterMap.mp (mem_stableSort.mp hitem)
      exact buyConvertibleAt_some hf

end Biznesinfo
namespace Biznesinfo

/-- Well-formedness of a stored candidate: it passed the safety filter for
its recorded source, and its volume is the lookup value of its phrase. -/
def CandidateOK (env : KeywordEnv) (ctxG ctxC : List Str)
    (volumeLookup : Option (Str → ℚ)) (c : KeywordCandidate) : Prop :=
  isSafeKeywordPhrase env c.phrase c.source ctxG ctxC = true ∧
    c.volume = volumeOfLookup volumeLookup c.phrase

theorem addCandidate_wf {env : KeywordEnv} {ctxG ctxC : List Str}
    {volumeLookup : Option (Str → ℚ)} {acc : List KeywordCandidate}
    {raw : Str} {src : KeywordSource} {base : ℤ}
    (hacc : ∀ c ∈ acc, CandidateOK env ctxG ctxC volumeLookup c) :
    ∀ c ∈ addCandidate env ctxG ctxC volumeLookup acc raw src base,
      CandidateOK env ctxG ctxC volumeLookup c := by
  intro c hc
  unfold addCandidate at hc
  simp only at hc
  generalize hph : normalizePhraseCandidate raw = ph at hc
  split at hc
  · exact hacc c hc
  · split at hc
    · exact hacc c hc
    next hsafe =>
      have hsafe' : isSafeKeywordPhrase env ph src ctxG ctxC = true := by
        simpa using hsafe
      split at hc
      next hnone =>
        rcases List.mem_append.mp hc with hm | hm
        · exact hacc c hm
        · rcases List.mem_singleton.mp hm with rfl
          exact ⟨hsafe', rfl⟩
      next existing heq =>
        have hexmem : existing ∈ acc := List.mem_of_find?_eq_some heq
        have hexph : existing.phrase = ph := by
          have := List.find?_some heq
          simpa using this
        have hexok := hacc existing hexmem
        split at hc
        · obtain ⟨y, hy, hfy⟩ := List.mem_map.mp hc
          cases hfy
          by_cases hyph : y.phrase = ph
          · rw [if_pos hyph]
            refine ⟨hsafe', ?_⟩
            show max (volumeOfLookup volumeLookup ph) existing.volume =
              volumeOfLookup volumeLookup ph
            rw [hexok.2, hexph, max_self]
          · rw [if_neg hyph]
            exact hacc y hy
        · split at hc
          · obtain ⟨y, hy, hfy⟩ := List.mem_map.mp hc
            cases hfy
            by_cases hyph : y.phrase = ph
            · rw [if_pos hyph]
              refine ⟨hexok.1, ?_⟩
              show volumeOfLookup volumeLookup ph =
                volumeOfLookup volumeLookup existing.phrase
              rw [hexph]
            · rw [if_neg hyph]
              exact hacc y hy
          · exact hacc c hc

theorem allCandidatesOf_wf (env : KeywordEnv) (company : BiznesinfoCompany)
    (opts : KeywordGenerationOptions) :
    ∀ c ∈ allCandidatesOf env company opts,
      CandidateOK env (extractContextGeoTokens company)
        (extractCompanyIdentityTokens company) (buildVolumeLookup opts) c := by
  unfold allCandidatesOf
  have main : ∀ (adds : List (Str × KeywordSource × ℤ)) (acc : List KeywordCandidate),
      (∀ c ∈ acc, CandidateOK env (extractContextGeoTokens company)
        (extractCompanyIdentityTokens company) (buildVolumeLookup opts) c) →
      ∀ c ∈ adds.foldl (fun acc add => addCandidate env (extractContextGeoTokens company)
        (extractCompanyIdentityTokens company) (buildVolumeLookup opts) acc
        add.1 add.2.1 add.2.2) acc,
        CandidateOK env (extractContextGeoTokens company)
          (extractCompanyIdentityTokens company) (buildVolumeLookup opts) c := by
    intro adds
    induction adds with
    | nil => intro acc hacc c hc; exact hacc c hc
    | cons add rest ih =>
      intro acc hacc c hc
      rw [List.foldl_cons] at hc
      exact ih _ (addCandidate_wf hacc) c hc
  exact main _ [] (by simp)

set_option maxHeartbeats 4000000 in
theorem isSafe_wordsCount_le {env : KeywordEnv} {p : Str} {src : KeywordSource}
    {ctxG ctxC : List Str}
    (h : isSafeKeywordPhrase env p src ctxG ctxC = true) : wordsCount p ≤ 6 := by
  unfold isSafeKeywordPhrase at h
  split_ifs at h <;> first | exact Bool.noConfusion h | omega

end Biznesinfo
namespace Biznesinfo

/-- Every phrase in the refined main selection either is the cargo insertion
`перевозки грузов` (cleared by `canUsePostProcessedPhrase`) or is the phrase
of a stored candidate that survived the strict-mode volume filter. -/
theorem selectedMain_mem {env : KeywordEnv} {company : BiznesinfoCompany}
    {opts : KeywordGenerationOptions} {p : Str}
    (h : p ∈ selectedMain env company opts) :
    (p = str "перевозки грузов" ∧
      canUsePostProcessedPhrase (str "перевозки грузов") (strictStatsActive opts)
        (buildVolumeLookup opts) = true) ∨
    ∃ c ∈ allCandidatesOf env company opts, c.phrase = p ∧
      (strictStatsActive opts = true → 0 < c.volume) := by
  unfold selectedMain at h
  rcases refineSelected_mem h with hm | hpg
  · rcases selectTopPhrases_mem hm with hm0 | ⟨c, hc, hph⟩
    · exact absurd hm0 (List.not_mem_nil p)
    · right
      unfold strictFilteredOf at hc
      by_cases hs : strictStatsActive opts = true
      · rw [if_pos hs] at hc
        have hf := List.mem_filter.mp hc
        exact ⟨c, hf.1, hph, fun _ => of_decide_eq_true hf.2⟩
      · rw [if_neg hs] at hc
        exact ⟨c, hc, hph, fun hs' => absurd hs' hs⟩
  · exact Or.inl hpg

/-- Every phrase in the selection after the rubric/category fallback pass
either is the cargo insertion or is the phrase of a stored candidate; in
strict mode that candidate has positive volume or entered through the
fallback pass, which only offers rubric and category candidates. -/
theorem selectedWithFallback_mem {env : KeywordEnv} {company : BiznesinfoCompany}
    {opts : KeywordGenerationOptions} {p : Str}
    (h : p ∈ selectedWithFallback env company opts) :
    (p = str "перевозки грузов" ∧
      canUsePostProcessedPhrase (str "перевозки грузов") (strictStatsActive opts)
        (buildVolumeLookup opts) = true) ∨
    ∃ c ∈ allCandidatesOf env company opts, c.phrase = p ∧
      (strictStatsActive opts = true →
        (0 < c.volume ∨ c.source = KeywordSource.rubric ∨
          c.source = KeywordSource.category)) := by
  have hmainlift : ∀ {q : Str}, q ∈ selectedMain env company opts →
      (q = str "перевозки грузов" ∧
        canUsePostProcessedPhrase (str "перевозки грузов") (strictStatsActive opts)
          (buildVolumeLookup opts) = true) ∨
      ∃ c ∈ allCandidatesOf env company opts, c.phrase = q ∧
        (strictStatsActive opts = true →
          (0 < c.volume ∨ c.source = KeywordSource.rubric ∨
            c.source = KeywordSource.category)) := by
    intro q hq
    rcases selectedMain_mem hq with hpg | ⟨c, hc, hph, hv⟩
    · exact Or.inl hpg
    · exact Or.inr ⟨c, hc, hph, fun hs => Or.inl (hv hs)⟩
  unfold selectedWithFallback at h
  simp only at h
  split at h
  · rcases refineSelected_mem h with hm | hpg
    · rcases selectTopPhrases_mem hm with hm0 | ⟨c, hc, hph⟩
      · exact hmainlift hm0
      · have h1 := List.mem_filter.mp hc
        have h2 := List.mem_filter.mp h1.1
        refine Or.inr ⟨c, h2.1, hph, fun _ => Or.inr ?_⟩
        have h3 := h2.2
        simp only [Bool.and_eq_true, Bool.or_eq_true, decide_eq_true_eq] at h3
        exact h3.1
    · exact Or.inl hpg
  · exact hmainlift h

/-- Every phrase produced by `generateCompanyKeywordPhrases` either is the
cargo insertion `перевозки грузов` (cleared by `canUsePostProcessedPhrase`)
or is the phrase of a candidate stored in the candidate map; in strict mode
that candidate has positive volume or is a rubric/category candidate. -/
theorem generate_mem_cases {env : KeywordEnv} {company : BiznesinfoCompany}
    {opts : KeywordGenerationOptions} {p : Str}
    (h : p ∈ generateCompanyKeywordPhrases env company opts) :
    (p = str "перевозки грузов" ∧
      canUsePostProcessedPhrase (str "перевозки грузов") (strictStatsActive opts)
        (buildVolumeLookup opts) = true) ∨
    ∃ c ∈ allCandidatesOf env company opts, c.phrase = p ∧
      (strictStatsActive opts = true →
        (0 < c.volume ∨ c.source = KeywordSource.rubric ∨
          c.source = KeywordSource.category)) := by
  unfold generateCompanyKeywordPhrases at h
  have h1 := List.mem_of_mem_take h
  rcases refineSelected_mem h1 with hm | hpg
  · rcases ensureBuy_mem hm with hm0 | ⟨c, hc, hph, hv⟩
    · exact selectedWithFallback_mem hm0
    · exact Or.inr ⟨c, hc, hph, fun hs => Or.inl (hv hs)⟩
  · exact Or.inl hpg

end Biznesinfo
namespace Biznesinfo

/-! ## Claims C1, C3, C4: output bounds, strict mode, diversity -/

/-- A company whose city token `грузов` makes the cargo-refinement phrase
`перевозки грузов` geo-unsafe, while its rubrics trigger the cargo signal
and a selected `перевозки` phrase. -/
def cargoGeoCompany : BiznesinfoCompany :=
  { city := str "грузов",
    rubrics := [{ name := str "грузоперевозки" }, { name := str "перевозки" }] }

/-- A company whose only candidate is the rubric phrase `пластиковые окна`,
which gets volume 0 under `windowStrictOpts`. -/
def windowRubricCompany : BiznesinfoCompany :=
  { rubrics := [{ name := str "пластиковые окна" }] }

/-- Strict-statistics options whose volume table never mentions the
company's phrases. -/
def windowStrictOpts : KeywordGenerationOptions :=
  { strictStats := true, volumeMap := [(str "другое", 5)] }

/-- A company whose output keeps both `перевозки грузов` (inserted by the
cargo refinement in place of `перевозки`) and `услуги перевозки грузов`,
two phrases with the same core. -/
def cargoPairCompany : BiznesinfoCompany :=
  { rubrics := [{ name := str "перевозки" }, { name := str "услуги перевозки грузов" }] }

/-- C1 counterexample: the cargo refinement of `generateCompanyKeywordPhrases`
inserts `перевозки грузов` without re-running the safety filter, so for
`cargoGeoCompany` (whose city token is `грузов`) the output contains a phrase
that `isSafeKeywordPhrase` rejects for every source. -/
theorem claim_C1_counterexample :
    str "перевозки грузов" ∈ generateCompanyKeywordPhrases specModelEnv cargoGeoCompany {} ∧
    ∀ src, isSafeKeywordPhrase specModelEnv (str "перевозки грузов") src
      (extractContextGeoTokens cargoGeoCompany)
      (extractCompanyIdentityTokens cargoGeoCompany) = false := by
  refine ⟨by decide, fun src => ?_⟩
  cases src <;> decide

/-- C1 (amended): `generateCompanyKeywordPhrases` returns at most the
effective maxKeywords phrases, each at most 6 words long, and each either
passing the safety filter for some source in the company's geo/identity
context or equal to the cargo-refinement insertion `перевозки грузов`,
which is not re-checked. -/
theorem claim_C1_amended_bounded_output (env : KeywordEnv) (company : BiznesinfoCompany)
    (opts : KeywordGenerationOptions) :
    (generateCompanyKeywordPhrases env company opts).length ≤ effectiveMaxKeywords opts ∧
    ∀ p ∈ generateCompanyKeywordPhrases env company opts,
      wordsCount p ≤ 6 ∧
      (p = str "перевозки грузов" ∨
        ∃ src, isSafeKeywordPhrase env p src (extractContextGeoTokens company)
          (extractCompanyIdentityTokens company) = true) := by
  constructor
  · unfold generateCompanyKeywordPhrases
    rw [List.length_take]
    exact min_le_left _ _
  · intro p hp
    rcases generate_mem_cases hp with ⟨hpg, -⟩ | ⟨c, hc, hph, -⟩
    · subst hpg
      exact ⟨by decide, Or.inl rfl⟩
    · have hwf := allCandidatesOf_wf env company opts c hc
      subst hph
      exact ⟨isSafe_wordsCount_le hwf.1, Or.inr ⟨c.source, hwf.1⟩⟩

/-- C3 counterexample: in strict statistics mode the rubric/category fallback
pass draws from the unfiltered candidate map, so `windowRubricCompany` still
publishes its rubric phrase although every stored candidate has volume 0. -/
theorem claim_C3_counterexample :
    strictStatsActive windowStrictOpts = true ∧
    str "пластиковые окна" ∈
      generateCompanyKeywordPhrases specModelEnv windowRubricCompany windowStrictOpts ∧
    ∀ c ∈ allCandidatesOf specModelEnv windowRubricCompany windowStrictOpts,
      c.volume = 0 := by
  refine ⟨by decide, by decide, by decide⟩

/-- C3 (amended): in strict statistics mode every output phrase comes from a
stored candidate that has positive volume or carries the rubric/category
source (the fallback pass skips the volume filter), or is the cargo
insertion `перевозки грузов`, which then has positive looked-up volume. -/
theorem claim_C3_amended_strict_volume (env : KeywordEnv) (company : BiznesinfoCompany)
    (opts : KeywordGenerationOptions) (hstrict : strictStatsActive opts = true) :
    ∀ p ∈ generateCompanyKeywordPhrases env company opts,
      (∃ c ∈ allCandidatesOf env company opts, c.phrase = p ∧
        (0 < c.volume ∨ c.source = KeywordSource.rubric ∨
          c.source = KeywordSource.category)) ∨
      (p = str "перевозки грузов" ∧
        ∃ lookup, buildVolumeLookup opts = some lookup ∧
          0 < lookup (str "перевозки грузов")) := by
  intro p hp
  rcases generate_mem_cases hp with ⟨hpg, hcan⟩ | ⟨c, hc, hph, hv⟩
  · right
    refine ⟨hpg, ?_⟩
    have hcan' : (match buildVolumeLookup opts with
        | none => false
        | some lookup => decide (0 < lookup (str "перевозки грузов"))) = true := by
      simpa [canUsePostProcessedPhrase, hstrict] using hcan
    cases hbl : buildVolumeLookup opts with
    | none => rw [hbl] at hcan'; exact Bool.noConfusion hcan'
    | some lookup =>
      rw [hbl] at hcan'
      exact ⟨lookup, rfl, of_decide_eq_true hcan'⟩
  · exact Or.inl ⟨c, hc, hph, hv hstrict⟩

/-- Witness for the amended C3 theorem at a concrete strict-mode input. -/
theorem claim_C3_amended_witness :
    strictStatsActive windowStrictOpts = true ∧
    ∀ p ∈ generateCompanyKeywordPhrases specModelEnv windowRubricCompany windowStrictOpts,
      (∃ c ∈ allCandidatesOf specModelEnv windowRubricCompany windowStrictOpts,
        c.phrase = p ∧
        (0 < c.volume ∨ c.source = KeywordSource.rubric ∨
          c.source = KeywordSource.category)) ∨
      (p = str "перевозки грузов" ∧
        ∃ lookup, buildVolumeLookup windowStrictOpts = some lookup ∧
          0 < lookup (str "перевозки грузов")) :=
  ⟨by decide,
    claim_C3_amended_strict_volume specModelEnv windowRubricCompany windowStrictOpts
      (by decide)⟩

/-- C4 counterexample: the diversity cap applies only during selection; the
cargo refinement rewrites `перевозки` into `перевозки грузов`, leaving two
output phrases with the same core (`услуги ` is a stripped transactional
prefix). -/
theorem claim_C4_counterexample :
    generateCompanyKeywordPhrases specModelEnv cargoPairCompany {} =
      [str "перевозки грузов", str "услуги перевозки грузов"] ∧
    coreKey (str "перевозки грузов") = coreKey (str "услуги перевозки грузов") := by
  refine ⟨by decide, by decide⟩

/-- C4 (amended): the selection pass itself does enforce the diversity cap:
starting from an empty selection, no two phrases returned by
`selectTopPhrases` share a core key (the post-processing passes may break
this). -/
theorem claim_C4_amended_selection_diversity (cands : List KeywordCandidate) (max : Nat) :
    (selectTopPhrases cands max []).Pairwise (fun a b => coreKey a ≠ coreKey b) := by
  have hfold : ∀ (sorted : List KeywordCandidate) (sel : List Str),
      sel.Pairwise (fun a b => coreKey a ≠ coreKey b) →
      (sorted.foldl (fun selected candidate =>
        if selected.length ≥ max then selected
        else if selected.contains candidate.phrase then selected
        else if (selected.filter (fun p => coreKey p = coreKey candidate.phrase)).length ≥
            MAX_VARIANTS_PER_CORE then selected
        else selected ++ [candidate.phrase]) sel).Pairwise
        (fun a b => coreKey a ≠ coreKey b) := by
    intro sorted
    induction sorted with
    | nil => intro sel hsel; exact hsel
    | cons c rest ih =>
      intro sel hsel
      rw [List.foldl_cons]
      apply ih
      by_cases h1 : sel.length ≥ max
      · rwa [if_pos h1]
      · rw [if_neg h1]
        by_cases h2 : sel.contains c.phrase
        · rwa [if_pos h2]
        · rw [if_neg h2]
          by_cases h3 : (sel.filter (fun p => coreKey p = coreKey c.phrase)).length ≥
              MAX_VARIANTS_PER_CORE
          · rwa [if_pos h3]
          · rw [if_neg h3]
            rw [List.pairwise_append]
            refine ⟨hsel, List.pairwise_singleton _ _, ?_⟩
            intro x hx y hy
            rcases List.mem_singleton.mp hy with rfl
            have hlen : (sel.filter (fun p => coreKey p = coreKey c.phrase)).length = 0 := by
              unfold MAX_VARIANTS_PER_CORE at h3
              omega
            intro hEq
            have hxmem : x ∈ sel.filter (fun p => coreKey p = coreKey c.phrase) :=
              List.mem_filter.mpr ⟨hx, by simpa using hEq⟩
            rw [List.length_eq_zero.mp hlen] at hxmem
            exact List.not_mem_nil _ hxmem
  unfold selectTopPhrases
  exact List.Pairwise.sublist (List.take_sublist _ _)
    (hfold (stableSort candLE cands) [] List.Pairwise.nil)

end Biznesinfo
namespace Biznesinfo

/-! ## Claim C8: idempotence of the keyword-phrase normalizer -/

/-- A character that can appear in a normalized phrase besides the space:
a lowercase Latin letter, a lowercase Cyrillic letter `а`-`я`, or a digit. -/
def plainChar (c : Char) : Bool :=
  let n := c.toNat
  (0x61 ≤ n && n ≤ 0x7a) || (0x430 ≤ n && n ≤ 0x44f) || (0x30 ≤ n && n ≤ 0x39)

/-- No two adjacent whitespace characters. -/
def spaceSep : Str → Bool
  | [] => true
  | [_] => true
  | c :: d :: rest => !(isSpaceU c && isSpaceU d) && spaceSep (d :: rest)

/-- Whether the string starts with a whitespace character. -/
def startsSpace : Str → Bool
  | [] => false
  | c :: _ => isSpaceU c

/-- Whether the string ends with a whitespace character. -/
def endsSpace : Str → Bool
  | [] => false
  | [c] => isSpaceU c
  | _ :: c :: rest => endsSpace (c :: rest)

/-- The shape of a fully normalized phrase: only plain characters and single
separating blanks, with no leading or trailing whitespace. -/
def NormalizedStr (t : Str) : Prop :=
  (∀ c ∈ t, plainChar c = true ∨ c = ' ') ∧ spaceSep t = true ∧
    startsSpace t = false ∧ endsSpace t = false

theorem char_eq_of_toNat {a b : Char} (h : a.toNat = b.toNat) : a = b := by
  apply Char.eq_of_val_eq
  apply UInt32.eq_of_toBitVec_eq
  exact BitVec.eq_of_toNat_eq h

theorem char_toNat_ofNat {n : Nat} (h : n.isValidChar) : (Char.ofNat n).toNat = n := by
  unfold Char.ofNat
  rw [dif_pos h]
  exact rfl

theorem good_toNat {c : Char} (h : plainChar c = true ∨ c = ' ') :
    (0x61 ≤ c.toNat ∧ c.toNat ≤ 0x7a) ∨ (0x430 ≤ c.toNat ∧ c.toNat ≤ 0x44f) ∨
    (0x30 ≤ c.toNat ∧ c.toNat ≤ 0x39) ∨ c.toNat = 0x20 := by
  rcases h with h | rfl
  · simp only [plainChar, Bool.or_eq_true, Bool.and_eq_true, decide_eq_true_eq] at h
    tauto
  · right; right; right; rfl

theorem good_ne {c : Char} (h : plainChar c = true ∨ c = ' ') (d : Char)
    (hd : (d.toNat < 0x30 ∧ d.toNat ≠ 0x20) ∨ (0x39 < d.toNat ∧ d.toNat < 0x61) ∨
      (0x7a < d.toNat ∧ d.toNat < 0x430) ∨ 0x44f < d.toNat) : c ≠ d := by
  intro hh
  subst hh
  have := good_toNat h
  omega

theorem good_lowerU_fixed {c : Char} (h : plainChar c = true ∨ c = ' ') :
    lowerU c = c := by
  have hn := good_toNat h
  have h1 : ¬(isAsciiUpper c = true) := by
    simp only [isAsciiUpper, Bool.and_eq_true, decide_eq_true_eq]
    omega
  have h2 : ¬(isCyrUpper c = true) := by
    simp only [isCyrUpper, Bool.and_eq_true, decide_eq_true_eq]
    omega
  have h3 : c ≠ 'Ё' := by
    intro hh
    rw [hh] at hn
    exact absurd hn (by decide)
  unfold lowerU
  rw [if_neg h1, if_neg h2, if_neg h3]

theorem good_ne_yo {c : Char} (h : plainChar c = true ∨ c = ' ') : c ≠ 'ё' := by
  intro hh
  rw [hh] at h
  rcases h with h | h
  · exact absurd h (by decide)
  · exact absurd h (by decide)

theorem good_quote_false {c : Char} (h : plainChar c = true ∨ c = ' ') :
    isQuoteChar c = false := by
  have hn := good_toNat h
  rw [Bool.eq_false_iff]
  intro hh
  simp only [isQuoteChar, Bool.or_eq_true, decide_eq_true_eq] at hh
  omega

theorem good_picto_false {c : Char} (h : plainChar c = true ∨ c = ' ') :
    isPicto c = false := by
  have hn := good_toNat h
  rw [Bool.eq_false_iff]
  intro hh
  simp only [isPicto, Bool.or_eq_true, Bool.and_eq_true, decide_eq_true_eq] at hh
  omega

theorem good_word_class {c : Char} (h : plainChar c = true ∨ c = ' ') :
    (isLetterU c || isDigitU c || isSpaceU c) = true := by
  have hn := good_toNat h
  simp only [isLetterU, isDigitU, isSpaceU, Bool.or_eq_true, Bool.and_eq_true,
    decide_eq_true_eq]
  omega

theorem good_space_blank {c : Char} (h : plainChar c = true ∨ c = ' ')
    (hs : isSpaceU c = true) : c = ' ' := by
  have hn := good_toNat h
  simp only [isSpaceU, Bool.or_eq_true, Bool.and_eq_true, decide_eq_true_eq] at hs
  apply char_eq_of_toNat
  show c.toNat = (' ').toNat
  have : (' ').toNat = 0x20 := rfl
  omega

theorem good_amp_false {c : Char} (h : plainChar c = true ∨ c = ' ') :
    eqCI '&' c = false := by
  rw [Bool.eq_false_iff]
  intro hh
  unfold eqCI at hh
  rw [decide_eq_true_eq] at hh
  rw [good_lowerU_fixed h] at hh
  rw [show lowerU '&' = '&' from by decide] at hh
  exact good_ne h '&' (by decide) hh.symm

theorem good_ne_lt_char {c : Char} (h : plainChar c = true ∨ c = ' ') : c ≠ '<' :=
  good_ne h '<' (by decide)

end Biznesinfo
namespace Biznesinfo

theorem map_id_on {f : Char → Char} : ∀ {t : Str}, (∀ c ∈ t, f c = c) → t.map f = t
  | [], _ => rfl
  | c :: rest, h => by
    rw [List.map_cons, h c (List.mem_cons_self _ _),
      map_id_on (fun d hd => h d (List.mem_cons_of_mem _ hd))]

theorem replaceAllCIGo_head_id {p : Char} {ps rep : Str} :
    ∀ (fuel : Nat) (t : Str), (∀ c ∈ t, eqCI p c = false) →
      replaceAllCIGo (p :: ps) rep fuel t = t := by
  intro fuel
  induction fuel with
  | zero => intro t _; rfl
  | succ fuel ih =>
    intro t h
    cases t with
    | nil => rfl
    | cons c rest =>
      unfold replaceAllCIGo
      rw [if_neg (by
        unfold startsWithCI
        rw [h c (List.mem_cons_self _ _)]
        simp)]
      rw [ih rest (fun d hd => h d (List.mem_cons_of_mem _ hd))]

theorem replaceAllCI_head_id {p : Char} {ps rep t : Str}
    (h : ∀ c ∈ t, eqCI p c = false) : replaceAllCI (p :: ps) rep t = t :=
  replaceAllCIGo_head_id t.length t h

theorem stripTagsGo_id : ∀ (fuel : Nat) (t : Str), (∀ c ∈ t, c ≠ '<') →
    stripTagsGo fuel t = t := by
  intro fuel
  induction fuel with
  | zero => intro t _; rfl
  | succ fuel ih =>
    intro t h
    cases t with
    | nil => rfl
    | cons c rest =>
      unfold stripTagsGo
      rw [if_neg (h c (List.mem_cons_self _ _))]
      rw [ih rest (fun d hd => h d (List.mem_cons_of_mem _ hd))]

theorem replaceRunsGo_nofire_id {p : Char → Bool} {r : Char} :
    ∀ (t : Str) (b : Bool), (∀ c ∈ t, p c = false) → replaceRunsGo p r b t = t := by
  intro t
  induction t with
  | nil => intro b _; rfl
  | cons c rest ih =>
    intro b h
    unfold replaceRunsGo
    rw [if_neg (by rw [h c (List.mem_cons_self _ _)]; exact Bool.false_ne_true)]
    rw [ih false (fun d hd => h d (List.mem_cons_of_mem _ hd))]

theorem spaceSep_tail {c : Char} {rest : Str} (h : spaceSep (c :: rest) = true) :
    spaceSep rest = true := by
  cases rest with
  | nil => rfl
  | cons d r =>
    have h' : (!(isSpaceU c && isSpaceU d) && spaceSep (d :: r)) = true := h
    exact ((Bool.and_eq_true _ _).mp h').2

theorem spaceSep_head_pair {c d : Char} {r : Str} (h : spaceSep (c :: d :: r) = true) :
    (isSpaceU c && isSpaceU d) = false := by
  have h' : (!(isSpaceU c && isSpaceU d) && spaceSep (d :: r)) = true := h
  have := ((Bool.and_eq_true _ _).mp h').1
  cases hb : (isSpaceU c && isSpaceU d)
  · rfl
  · rw [hb] at this; exact absurd this (by decide)

theorem collapse_go_id : ∀ (t : Str),
    (∀ c ∈ t, isSpaceU c = true → c = ' ') → spaceSep t = true →
    (replaceRunsGo isSpaceU ' ' false t = t ∧
      (startsSpace t = false → replaceRunsGo isSpaceU ' ' true t = t)) := by
  intro t
  induction t with
  | nil => intro _ _; exact ⟨rfl, fun _ => rfl⟩
  | cons c rest ih =>
    intro hblank hsep
    have ih' := ih (fun d hd => hblank d (List.mem_cons_of_mem _ hd)) (spaceSep_tail hsep)
    by_cases hsc : isSpaceU c = true
    · have hc := hblank c (List.mem_cons_self _ _) hsc
      have hrest : startsSpace rest = false := by
        cases rest with
        | nil => rfl
        | cons d r =>
          have hp := spaceSep_head_pair hsep
          rw [hsc] at hp
          show isSpaceU d = false
          cases hd : isSpaceU d
          · rfl
          · rw [hd] at hp; exact absurd hp (by decide)
      constructor
      · show replaceRunsGo isSpaceU ' ' false (c :: rest) = c :: rest
        unfold replaceRunsGo
        rw [if_pos hsc]
        rw [ih'.2 hrest]
        rw [hc]
        rfl
      · intro hstart
        have : isSpaceU c = false := hstart
        rw [this] at hsc
        exact absurd hsc (by decide)
    · have hsc' : isSpaceU c = false := by
        cases hb : isSpaceU c
        · rfl
        · rw [hb] at hsc; exact absurd rfl hsc
      constructor
      · unfold replaceRunsGo
        rw [if_neg hsc, ih'.1]
      · intro _
        unfold replaceRunsGo
        rw [if_neg hsc, ih'.1]

theorem dropWhile_id_of_head {t : Str} (h : startsSpace t = false) :
    t.dropWhile isSpaceU = t := by
  cases t with
  | nil => rfl
  | cons c rest =>
    rw [List.dropWhile_cons]
    rw [if_neg (by rw [show isSpaceU c = false from h]; exact Bool.false_ne_true)]

theorem trimRightU_id : ∀ (t : Str), endsSpace t = false → trimRightU t = t := by
  intro t
  induction t with
  | nil => intro _; rfl
  | cons c rest ih =>
    intro h
    cases rest with
    | nil =>
      have hc : isSpaceU c = false := h
      unfold trimRightU
      rw [hc]
      simp [trimRightU]
    | cons d r =>
      have h' : endsSpace (d :: r) = false := h
      unfold trimRightU
      rw [ih h']
      simp

end Biznesinfo
namespace Biznesinfo

theorem mem_replaceRunsGo {p : Char → Bool} {r : Char} :
    ∀ {t : Str} {b : Bool} {c : Char}, c ∈ replaceRunsGo p r b t →
      c = r ∨ (c ∈ t ∧ p c = false) := by
  intro t
  induction t with
  | nil => intro b c hc; exact absurd hc (List.not_mem_nil c)
  | cons a rest ih =>
    intro b c hc
    unfold replaceRunsGo at hc
    by_cases hpa : p a = true
    · rw [if_pos hpa] at hc
      rcases List.mem_append.mp hc with hm | hm
      · left
        by_cases hb : b = true
        · rw [if_pos hb] at hm; exact absurd hm (List.not_mem_nil c)
        · rw [if_neg hb] at hm; exact List.mem_singleton.mp hm
      · rcases ih hm with h | ⟨h1, h2⟩
        · exact Or.inl h
        · exact Or.inr ⟨List.mem_cons_of_mem _ h1, h2⟩
    · rw [if_neg hpa] at hc
      rcases List.mem_cons.mp hc with rfl | hm
      · right
        refine ⟨List.mem_cons_self _ _, ?_⟩
        cases hb : p c
        · rfl
        · rw [hb] at hpa; exact absurd rfl hpa
      · rcases ih hm with h | ⟨h1, h2⟩
        · exact Or.inl h
        · exact Or.inr ⟨List.mem_cons_of_mem _ h1, h2⟩

theorem trimRightU_cons (c : Char) (rest : Str) :
    trimRightU (c :: rest) =
      if (List.isEmpty (trimRightU rest) && isSpaceU c) = true then []
      else c :: trimRightU rest := rfl

theorem mem_trimRightU : ∀ {t : Str} {c : Char}, c ∈ trimRightU t → c ∈ t := by
  intro t
  induction t with
  | nil => intro c hc; exact hc
  | cons a rest ih =>
    intro c hc
    rw [trimRightU_cons] at hc
    split at hc
    · exact absurd hc (List.not_mem_nil c)
    · rcases List.mem_cons.mp hc with rfl | hm
      · exact List.mem_cons_self _ _
      · exact List.mem_cons_of_mem _ (ih hm)

theorem mem_dropWhileSpace {t : Str} {c : Char} (hc : c ∈ t.dropWhile isSpaceU) :
    c ∈ t := by
  induction t with
  | nil => exact hc
  | cons a rest ih =>
    rw [List.dropWhile_cons] at hc
    by_cases ha : isSpaceU a = true
    · rw [if_pos ha] at hc
      exact List.mem_cons_of_mem _ (ih hc)
    · rw [if_neg ha] at hc
      exact hc

theorem collapse_go_shape :
    ∀ (t : Str) (b : Bool),
      spaceSep (replaceRunsGo isSpaceU ' ' b t) = true ∧
      (b = true → startsSpace (replaceRunsGo isSpaceU ' ' b t) = false) := by
  intro t
  induction t with
  | nil => intro b; exact ⟨rfl, fun _ => rfl⟩
  | cons c rest ih =>
    intro b
    unfold replaceRunsGo
    by_cases hsc : isSpaceU c = true
    · rw [if_pos hsc]
      by_cases hb : b = true
      · rw [if_pos hb]
        refine ⟨(ih true).1, fun _ => (ih true).2 rfl⟩
      · rw [if_neg hb]
        refine ⟨?_, fun hb' => absurd hb' hb⟩
        show spaceSep (' ' :: replaceRunsGo isSpaceU ' ' true rest) = true
        cases hgo : replaceRunsGo isSpaceU ' ' true rest with
        | nil => rfl
        | cons d r =>
          show (!(isSpaceU ' ' && isSpaceU d) && spaceSep (d :: r)) = true
          have hd : isSpaceU d = false := by
            have := (ih true).2 rfl
            rw [hgo] at this
            exact this
          rw [hd]
          have hs := (ih true).1
          rw [hgo] at hs
          rw [hs]
          rfl
    · rw [if_neg hsc]
      have hsc' : isSpaceU c = false := by
        cases hx : isSpaceU c
        · rfl
        · rw [hx] at hsc; exact absurd rfl hsc
      refine ⟨?_, fun _ => hsc'⟩
      cases hgo : replaceRunsGo isSpaceU ' ' false rest with
      | nil => rfl
      | cons d r =>
        show (!(isSpaceU c && isSpaceU d) && spaceSep (d :: r)) = true
        rw [hsc']
        have hs := (ih false).1
        rw [hgo] at hs
        rw [hs]
        rfl

theorem startsSpace_dropWhile (t : Str) : startsSpace (t.dropWhile isSpaceU) = false := by
  induction t with
  | nil => rfl
  | cons c rest ih =>
    rw [List.dropWhile_cons]
    by_cases hc : isSpaceU c = true
    · rw [if_pos hc]; exact ih
    · rw [if_neg hc]
      show isSpaceU c = false
      cases hx : isSpaceU c
      · rfl
      · rw [hx] at hc; exact absurd rfl hc

theorem spaceSep_dropWhile {t : Str} (h : spaceSep t = true) :
    spaceSep (t.dropWhile isSpaceU) = true := by
  induction t with
  | nil => exact h
  | cons c rest ih =>
    rw [List.dropWhile_cons]
    by_cases hc : isSpaceU c = true
    · rw [if_pos hc]; exact ih (spaceSep_tail h)
    · rw [if_neg hc]; exact h

theorem trimRightU_head_cons (c : Char) (rest : Str) :
    trimRightU (c :: rest) = [] ∨ trimRightU (c :: rest) = c :: trimRightU rest := by
  rw [trimRightU_cons]
  by_cases h : (List.isEmpty (trimRightU rest) && isSpaceU c) = true
  · rw [if_pos h]; exact Or.inl rfl
  · rw [if_neg h]; exact Or.inr rfl

theorem startsSpace_trimRightU {t : Str} (h : startsSpace t = false) :
    startsSpace (trimRightU t) = false := by
  cases t with
  | nil => exact h
  | cons c rest =>
    rcases trimRightU_head_cons c rest with heq | heq
    · rw [heq]; rfl
    · rw [heq]; exact h

theorem endsSpace_trimRightU : ∀ (t : Str), endsSpace (trimRightU t) = false := by
  intro t
  induction t with
  | nil => rfl
  | cons c rest ih =>
    rw [trimRightU_cons]
    split
    next hcond =>
      rfl
    next hcond =>
      cases hr : trimRightU rest with
      | nil =>
        show endsSpace [c] = false
        show isSpaceU c = false
        rw [hr] at hcond
        cases hx : isSpaceU c
        · rfl
        · exact absurd (by rw [hx]; rfl) hcond
      | cons d r =>
        show endsSpace (c :: d :: r) = false
        show endsSpace (d :: r) = false
        rw [hr] at ih
        exact ih

theorem spaceSep_trimRightU : ∀ {t : Str}, spaceSep t = true →
    spaceSep (trimRightU t) = true := by
  intro t
  induction t with
  | nil => intro h; exact h
  | cons c rest ih =>
    intro h
    rcases trimRightU_head_cons c rest with heq | heq
    · rw [heq]; rfl
    · rw [heq]
      cases hr : trimRightU rest with
      | nil => rfl
      | cons d r =>
        cases rest with
        | nil => exact absurd hr (by exact fun hh => List.noConfusion hh)
        | cons e rest2 =>
          rcases trimRightU_head_cons e rest2 with h0 | h0
          · rw [h0] at hr; exact absurd hr (fun hh => List.noConfusion hh)
          · rw [h0] at hr
            have hed : e = d := (List.cons.injEq _ _ _ _).mp hr |>.1
            show (!(isSpaceU c && isSpaceU d) && spaceSep (d :: r)) = true
            have hpair := spaceSep_head_pair h
            rw [hed] at hpair
            rw [hpair]
            have hsep := ih (spaceSep_tail h)
            rw [h0, hr] at hsep
            rw [hsep]
            rfl

end Biznesinfo
namespace Biznesinfo

theorem gchar_LF (a : Char) :
    lowerU (if isQuoteChar (if lowerU a = 'ё' then 'е' else lowerU a) then ' '
        else if lowerU a = 'ё' then 'е' else lowerU a) =
      (if isQuoteChar (if lowerU a = 'ё' then 'е' else lowerU a) then ' '
        else if lowerU a = 'ё' then 'е' else lowerU a) ∧
    (if isQuoteChar (if lowerU a = 'ё' then 'е' else lowerU a) then ' '
        else if lowerU a = 'ё' then 'е' else lowerU a) ≠ 'ё' := by
  by_cases hA : isAsciiUpper a = true
  · have hrange : 0x41 ≤ a.toNat ∧ a.toNat ≤ 0x5a := by
      simp only [isAsciiUpper, Bool.and_eq_true, decide_eq_true_eq] at hA
      exact hA
    have hla : lowerU a = Char.ofNat (a.toNat + 32) := by
      unfold lowerU
      rw [if_pos hA]
    have htn : (lowerU a).toNat = a.toNat + 32 := by
      rw [hla]
      exact char_toNat_ofNat (Or.inl (by omega))
    have hplain : plainChar (lowerU a) = true ∨ lowerU a = ' ' := by
      left
      simp only [plainChar, Bool.or_eq_true, Bool.and_eq_true, decide_eq_true_eq]
      omega
    have hyo : ¬(lowerU a = 'ё') := good_ne_yo hplain
    rw [if_neg hyo]
    rw [if_neg (by rw [good_quote_false hplain]; exact Bool.false_ne_true)]
    exact ⟨good_lowerU_fixed hplain, hyo⟩
  · by_cases hC : isCyrUpper a = true
    · have hrange : 0x410 ≤ a.toNat ∧ a.toNat ≤ 0x42f := by
        simp only [isCyrUpper, Bool.and_eq_true, decide_eq_true_eq] at hC
        exact hC
      have hla : lowerU a = Char.ofNat (a.toNat + 32) := by
        unfold lowerU
        rw [if_neg hA, if_pos hC]
      have htn : (lowerU a).toNat = a.toNat + 32 := by
        rw [hla]
        exact char_toNat_ofNat (Or.inl (by omega))
      have hplain : plainChar (lowerU a) = true ∨ lowerU a = ' ' := by
        left
        simp only [plainChar, Bool.or_eq_true, Bool.and_eq_true, decide_eq_true_eq]
        omega
      have hyo : ¬(lowerU a = 'ё') := good_ne_yo hplain
      rw [if_neg hyo]
      rw [if_neg (by rw [good_quote_false hplain]; exact Bool.false_ne_true)]
      exact ⟨good_lowerU_fixed hplain, hyo⟩
    · by_cases hE : a = 'Ё'
      · subst hE
        exact ⟨by decide, by decide⟩
      · have hla : lowerU a = a := by
          unfold lowerU
          rw [if_neg hA, if_neg hC, if_neg hE]
        rw [hla]
        by_cases hyo : a = 'ё'
        · subst hyo
          exact ⟨by decide, by decide⟩
        · rw [if_neg hyo]
          by_cases hqc : isQuoteChar a = true
          · rw [if_pos hqc]
            exact ⟨by decide, by decide⟩
          · rw [if_neg hqc]
            exact ⟨hla, hyo⟩

theorem mem_v1_LF {w : Str} {c : Char}
    (hc : c ∈ mapClassTo isQuoteChar ' ' (foldYo (lowerStr w))) :
    lowerU c = c ∧ c ≠ 'ё' := by
  unfold mapClassTo at hc
  rcases List.mem_map.mp hc with ⟨b, hb, rfl⟩
  unfold foldYo at hb
  rcases List.mem_map.mp hb with ⟨a0, ha0, rfl⟩
  unfold lowerStr at ha0
  rcases List.mem_map.mp ha0 with ⟨a, _, rfl⟩
  exact gchar_LF a

theorem plain_of_word_char {c : Char} (hw : (isLetterU c || isDigitU c) = true)
    (hf : lowerU c = c) (hy : c ≠ 'ё') : plainChar c = true := by
  simp only [isLetterU, isDigitU, Bool.or_eq_true, Bool.and_eq_true,
    decide_eq_true_eq] at hw
  simp only [plainChar, Bool.or_eq_true, Bool.and_eq_true, decide_eq_true_eq]
  have hnotA : ¬(0x41 ≤ c.toNat ∧ c.toNat ≤ 0x5a) := by
    intro hr
    have hA : isAsciiUpper c = true := by
      simp only [isAsciiUpper, Bool.and_eq_true, decide_eq_true_eq]
      exact hr
    have heq : lowerU c = Char.ofNat (c.toNat + 32) := by
      unfold lowerU
      rw [if_pos hA]
    rw [hf] at heq
    have h2 := congrArg Char.toNat heq
    rw [char_toNat_ofNat (Or.inl (by omega))] at h2
    omega
  have hnotC : ¬(0x410 ≤ c.toNat ∧ c.toNat ≤ 0x42f) := by
    intro hr
    have hA : isCyrUpper c = true := by
      simp only [isCyrUpper, Bool.and_eq_true, decide_eq_true_eq]
      exact hr
    have hA' : isAsciiUpper c = false := by
      rw [Bool.eq_false_iff]
      intro hh
      simp only [isAsciiUpper, Bool.and_eq_true, decide_eq_true_eq] at hh
      omega
    have heq : lowerU c = Char.ofNat (c.toNat + 32) := by
      unfold lowerU
      rw [if_neg (by rw [hA']; exact Bool.false_ne_true), if_pos hA]
    rw [hf] at heq
    have h2 := congrArg Char.toNat heq
    rw [char_toNat_ofNat (Or.inl (by omega))] at h2
    omega
  have hnotE : c.toNat ≠ 0x451 := by
    intro hr
    exact hy (char_eq_of_toNat (by rw [hr]; decide))
  have hnotF : c.toNat ≠ 0x401 := by
    intro hr
    have hcE : c = 'Ё' := char_eq_of_toNat (by rw [hr]; decide)
    rw [hcE] at hf
    exact absurd hf (by decide)
  omega

theorem pipeline_good {w : Str} {c : Char}
    (hc : c ∈ replaceRunsWith isSpaceU ' '
      (replaceRunsWith (fun c => !(isLetterU c || isDigitU c || isSpaceU c)) ' '
        (mapClassTo isQuoteChar ' ' (foldYo (lowerStr w))))) :
    plainChar c = true ∨ c = ' ' := by
  unfold replaceRunsWith at hc
  rcases mem_replaceRunsGo hc with rfl | ⟨hc2, hcs⟩
  · exact Or.inr rfl
  · rcases mem_replaceRunsGo hc2 with rfl | ⟨hc3, hcw⟩
    · exact Or.inr rfl
    · have hw : (isLetterU c || isDigitU c || isSpaceU c) = true := by
        cases hb : (isLetterU c || isDigitU c || isSpaceU c)
        · rw [hb] at hcw
          exact absurd hcw (by decide)
        · rfl
      have hLF := mem_v1_LF hc3
      have hw2 : (isLetterU c || isDigitU c) = true := by
        rcases (Bool.or_eq_true _ _).mp hw with h1 | h2
        · exact h1
        · rw [h2] at hcs
          exact absurd hcs (by decide)
      exact Or.inl (plain_of_word_char hw2 hLF.1 hLF.2)

theorem normalizedStr_pipeline (w : Str) :
    NormalizedStr (trimU (replaceRunsWith isSpaceU ' '
      (replaceRunsWith (fun c => !(isLetterU c || isDigitU c || isSpaceU c)) ' '
        (mapClassTo isQuoteChar ' ' (foldYo (lowerStr w)))))) := by
  refine ⟨?_, ?_, ?_, ?_⟩
  · intro c hc
    unfold trimU at hc
    exact pipeline_good (mem_dropWhileSpace (mem_trimRightU hc))
  · unfold trimU
    apply spaceSep_trimRightU
    apply spaceSep_dropWhile
    unfold replaceRunsWith
    exact (collapse_go_shape _ false).1
  · unfold trimU
    exact startsSpace_trimRightU (startsSpace_dropWhile _)
  · unfold trimU
    exact endsSpace_trimRightU _

theorem normalizedStr_normalize (s : Str) : NormalizedStr (normalizeKeywordPhrase s) := by
  unfold normalizeKeywordPhrase
  exact normalizedStr_pipeline _

end Biznesinfo
namespace Biznesinfo

theorem normalize_id_of_normalizedStr {t : Str} (h : NormalizedStr t) :
    normalizeKeywordPhrase t = t := by
  obtain ⟨hgood, hsep, hstart, hend⟩ := h
  have hamp : ∀ c ∈ t, eqCI '&' c = false := fun c hc => good_amp_false (hgood c hc)
  have h0 : decodeHtmlEntities t = t := by
    unfold decodeHtmlEntities
    rw [show str "&nbsp;" = '&' :: str "nbsp;" from by decide, replaceAllCI_head_id hamp]
    rw [show str "&amp;" = '&' :: str "amp;" from by decide, replaceAllCI_head_id hamp]
    rw [show str "&quot;" = '&' :: str "quot;" from by decide, replaceAllCI_head_id hamp]
    rw [show str "&#34;" = '&' :: str "#34;" from by decide, replaceAllCI_head_id hamp]
    rw [show str "&apos;" = '&' :: str "apos;" from by decide, replaceAllCI_head_id hamp]
    rw [show str "&#39;" = '&' :: str "#39;" from by decide, replaceAllCI_head_id hamp]
    rw [show str "&lt;" = '&' :: str "lt;" from by decide, replaceAllCI_head_id hamp]
    rw [show str "&gt;" = '&' :: str "gt;" from by decide, replaceAllCI_head_id hamp]
  have h1 : stripTags t = t := stripTagsGo_id t.length t
    (fun c hc => good_ne_lt_char (hgood c hc))
  have h2 : stripPicto t = t := by
    unfold stripPicto mapClassTo
    apply map_id_on
    intro c hc
    rw [if_neg (by rw [good_picto_false (hgood c hc)]; exact Bool.false_ne_true)]
  have h3 : lowerStr t = t := by
    unfold lowerStr
    exact map_id_on (fun c hc => good_lowerU_fixed (hgood c hc))
  have h4 : foldYo t = t := by
    unfold foldYo
    apply map_id_on
    intro c hc
    rw [if_neg (good_ne_yo (hgood c hc))]
  have h5 : mapClassTo isQuoteChar ' ' t = t := by
    unfold mapClassTo
    apply map_id_on
    intro c hc
    rw [if_neg (by rw [good_quote_false (hgood c hc)]; exact Bool.false_ne_true)]
  have h6 : replaceRunsWith (fun c => !(isLetterU c || isDigitU c || isSpaceU c)) ' ' t = t := by
    unfold replaceRunsWith
    apply replaceRunsGo_nofire_id
    intro c hc
    simp [good_word_class (hgood c hc)]
  have h7 : replaceRunsWith isSpaceU ' ' t = t := by
    unfold replaceRunsWith
    exact (collapse_go_id t (fun c hc hs => good_space_blank (hgood c hc) hs) hsep).1
  have h8 : trimU t = t := by
    unfold trimU
    rw [dropWhile_id_of_head hstart]
    exact trimRightU_id t hend
  unfold normalizeKeywordPhrase
  rw [h0, h1, h2, h3, h4, h5, h6, h7]
  exact h8

/-- C8: the keyword-phrase normalizer is idempotent: normalizing an already
normalized phrase returns it unchanged, for every input string. -/
theorem claim_C8_normalize_idempotent (s : Str) :
    normalizeKeywordPhrase (normalizeKeywordPhrase s) = normalizeKeywordPhrase s :=
  normalize_id_of_normalizedStr (normalizedStr_normalize s)

end Biznesinfo
